import Mathlib

/-!
# Verification of the deconvolution core of the RF repository

This file shallowly embeds the deconvolution engine of `rf/deconvolve.py`
(time-domain Toeplitz deconvolution, frequency-domain waterlevel
deconvolution, iterative spike-train deconvolution, multitaper
deconvolution, and the helper routines they use) and proves properties of
the embedding.

Modelling conventions:

* numpy float arrays become `List ℝ` (complex arrays `List ℂ`); float
  arithmetic is modelled by exact real arithmetic, so floating-point
  rounding is out of scope.  Division is Lean's total division (`x / 0 = 0`),
  which is noted wherever the Python code could produce `inf`/`nan` instead.
* `scipy.fftpack.fft`/`ifft` with transform size `n` become discrete Fourier
  sums over `ZMod n` (`fft(x, n)` zero-pads or truncates `x` to `n` points,
  which the embedding reproduces via `List.getD`).
* external library calls that have no source in this repository
  (`scipy.signal.correlate`, the Toeplitz solvers, `scipy.signal.detrend`,
  `mtspec` DPSS tapers, `obspy` trace sample times) are modelled from their
  documented semantics; each such definition carries a comment saying so.
-/

open scoped BigOperators ComplexConjugate

namespace RF

noncomputable section

/-! ## Discrete Fourier transform core

`scipy.fftpack.fft(x, n)` computes `X[k] = sum_j x[j] * exp(-2*pi*I*j*k/n)`
and `ifft` the inverse with a `1/n` factor.  We realise both as sums over
`ZMod n`, driven by the character `eZ`. -/

/-- The unit character `exp (2 * pi * I * m / n)` for `m : ZMod n`; every
discrete Fourier sum in `rf/deconvolve.py` is built from its powers. -/
def eZ (n : ℕ) (m : ZMod n) : ℂ :=
  Complex.exp (2 * Real.pi * Complex.I * m.val / n)

theorem eZ_natCast (n : ℕ) [NeZero n] (k : ℕ) :
    eZ n (k : ZMod n) = Complex.exp (2 * Real.pi * Complex.I * k / n) := by
  have hn : (n : ℂ) ≠ 0 := Nat.cast_ne_zero.mpr (NeZero.ne n)
  rw [eZ, ZMod.val_natCast]
  have hk0 : k % n + k / n * n = k := Nat.mod_add_div' k n
  have hk : (k : ℂ) = ((k % n : ℕ) : ℂ) + ((k / n : ℕ) : ℂ) * (n : ℂ) := by
    conv_lhs => rw [← hk0]
    push_cast
    ring
  have h2 : 2 * Real.pi * Complex.I * (k : ℂ) / n
      = 2 * Real.pi * Complex.I * ((k % n : ℕ) : ℂ) / n
        + ((k / n : ℕ) : ℂ) * (2 * Real.pi * Complex.I) := by
    rw [hk]; field_simp; ring_nf
  rw [h2, Complex.exp_add, Complex.exp_nat_mul_two_pi_mul_I, mul_one]

theorem eZ_zero (n : ℕ) [NeZero n] : eZ n 0 = 1 := by
  unfold eZ
  rw [ZMod.val_zero]
  norm_num

theorem eZ_add (n : ℕ) [NeZero n] (a b : ZMod n) :
    eZ n (a + b) = eZ n a * eZ n b := by
  have h := eZ_natCast n (a.val + b.val)
  rw [Nat.cast_add, ZMod.natCast_rightInverse a, ZMod.natCast_rightInverse b] at h
  rw [h, eZ, eZ, ← Complex.exp_add]
  congr 1
  push_cast
  ring

theorem eZ_ne_zero (n : ℕ) (m : ZMod n) : eZ n m ≠ 0 :=
  Complex.exp_ne_zero _

theorem eZ_mul_eZ_neg (n : ℕ) [NeZero n] (m : ZMod n) :
    eZ n m * eZ n (-m) = 1 := by
  rw [← eZ_add, add_neg_cancel, eZ_zero]

theorem eZ_neg (n : ℕ) [NeZero n] (m : ZMod n) : eZ n (-m) = (eZ n m)⁻¹ :=
  eq_inv_of_mul_eq_one_left (by rw [mul_comm]; exact eZ_mul_eZ_neg n m)

theorem conj_eZ (n : ℕ) [NeZero n] (m : ZMod n) :
    conj (eZ n m) = eZ n (-m) := by
  have habs : eZ n m * conj (eZ n m) = 1 := by
    rw [Complex.mul_conj]
    norm_cast
    rw [← Complex.sq_abs]
    rw [eZ, show 2 * Real.pi * Complex.I * (m.val : ℂ) / n
        = ((2 * Real.pi * m.val / n : ℝ) : ℂ) * Complex.I by push_cast; ring]
    rw [Complex.abs_exp_ofReal_mul_I]
    norm_num
  have h2 := eZ_mul_eZ_neg n m
  exact mul_left_cancel₀ (eZ_ne_zero n m) (by rw [habs, h2])

theorem eZ_eq_one_iff (n : ℕ) [NeZero n] (m : ZMod n) :
    eZ n m = 1 ↔ m = 0 := by
  constructor
  · intro h
    rw [eZ, Complex.exp_eq_one_iff] at h
    obtain ⟨t, ht⟩ := h
    have hn : (n : ℂ) ≠ 0 := Nat.cast_ne_zero.mpr (NeZero.ne n)
    have htpi : (2 * Real.pi * Complex.I) ≠ 0 := by
      simp [Real.pi_ne_zero, Complex.I_ne_zero]
    have hnpos : (0 : ℤ) < n := by exact_mod_cast Nat.pos_of_ne_zero (NeZero.ne n)
    have h1 : 2 * Real.pi * Complex.I * ((m.val : ℂ) / n)
        = 2 * Real.pi * Complex.I * (t : ℂ) := by
      rw [← mul_div_assoc, ht]
      ring
    have hdiv : (m.val : ℂ) / n = (t : ℂ) := mul_left_cancel₀ htpi h1
    have hnC : (n : ℂ) ≠ 0 := Nat.cast_ne_zero.mpr (NeZero.ne n)
    have hv : (m.val : ℂ) = (t : ℂ) * n := by
      rw [div_eq_iff hnC] at hdiv
      exact hdiv
    have hvz : (m.val : ℤ) = t * n := by exact_mod_cast hv
    have hlt : m.val < n := ZMod.val_lt m
    have hltz : (m.val : ℤ) < n := by exact_mod_cast hlt
    have ht0 : t = 0 := by
      rcases lt_trichotomy t 0 with h1 | h1 | h1
      · exfalso
        have h4 : t * (n : ℤ) < 0 := mul_neg_of_neg_of_pos h1 hnpos
        have h5 : (m.val : ℤ) < 0 := by rw [hvz]; exact h4
        omega
      · exact h1
      · exfalso
        have h4 : (n : ℤ) ≤ t * n := by nlinarith
        have h5 : (n : ℤ) ≤ (m.val : ℤ) := by rw [hvz]; exact h4
        omega
    have hval : (m.val : ℤ) = 0 := by rw [ht0] at hvz; simpa using hvz
    have : m.val = 0 := by exact_mod_cast hval
    exact (ZMod.val_eq_zero m).mp this
  · rintro rfl
    exact eZ_zero n

/-- Orthogonality of characters: summing `eZ (j * m)` over one period gives
`n` at `m = 0` and `0` elsewhere. -/
theorem sum_eZ_mul (n : ℕ) [NeZero n] (m : ZMod n) :
    ∑ j : ZMod n, eZ n (j * m) = if m = 0 then (n : ℂ) else 0 := by
  split_ifs with h
  · subst h
    simp only [mul_zero, eZ_zero]
    simp [Finset.card_univ, ZMod.card]
  · have hz : eZ n m ≠ 1 := fun hh => h ((eZ_eq_one_iff n m).mp hh)
    have key : (∑ j : ZMod n, eZ n (j * m)) * eZ n m
        = ∑ j : ZMod n, eZ n (j * m) := by
      rw [Finset.sum_mul]
      have hterm : ∀ j : ZMod n, eZ n (j * m) * eZ n m = eZ n ((j + 1) * m) := by
        intro j
        rw [← eZ_add]
        congr 1
        ring
      calc ∑ j : ZMod n, eZ n (j * m) * eZ n m
          = ∑ j : ZMod n, eZ n ((j + 1) * m) := Finset.sum_congr rfl fun j _ => hterm j
        _ = ∑ j : ZMod n, eZ n (j * m) :=
            Fintype.sum_equiv (Equiv.addRight 1) _ _ (fun j => rfl)
    have h2 : (∑ j : ZMod n, eZ n (j * m)) * (eZ n m - 1) = 0 := by
      rw [mul_sub, key, mul_one, sub_self]
    rcases mul_eq_zero.mp h2 with h3 | h3
    · exact h3
    · exact absurd (sub_eq_zero.mp h3) hz

/-- `fft` kernel sum over `ZMod n`: `dftZ x k = sum_j x j * exp(-2 pi I j k / n)`,
the convention of `scipy.fftpack.fft`. -/
def dftZ {n : ℕ} [NeZero n] (x : ZMod n → ℂ) (k : ZMod n) : ℂ :=
  ∑ j, x j * eZ n (-(j * k))

/-- `ifft` kernel sum over `ZMod n` with the `1/n` factor of
`scipy.fftpack.ifft`. -/
def idftZ {n : ℕ} [NeZero n] (x : ZMod n → ℂ) (j : ZMod n) : ℂ :=
  (∑ k, x k * eZ n (j * k)) / n

theorem dftZ_add {n : ℕ} [NeZero n] (x y : ZMod n → ℂ) (k : ZMod n) :
    dftZ (fun j => x j + y j) k = dftZ x k + dftZ y k := by
  unfold dftZ
  rw [← Finset.sum_add_distrib]
  exact Finset.sum_congr rfl fun j _ => by ring

theorem dftZ_smul {n : ℕ} [NeZero n] (c : ℂ) (x : ZMod n → ℂ) (k : ZMod n) :
    dftZ (fun j => c * x j) k = c * dftZ x k := by
  unfold dftZ
  rw [Finset.mul_sum]
  exact Finset.sum_congr rfl fun j _ => by ring

theorem idftZ_add {n : ℕ} [NeZero n] (x y : ZMod n → ℂ) (j : ZMod n) :
    idftZ (fun k => x k + y k) j = idftZ x j + idftZ y j := by
  unfold idftZ
  rw [div_add_div_same, ← Finset.sum_add_distrib]
  congr 1
  exact Finset.sum_congr rfl fun k _ => by ring

theorem idftZ_smul {n : ℕ} [NeZero n] (c : ℂ) (x : ZMod n → ℂ) (j : ZMod n) :
    idftZ (fun k => c * x k) j = c * idftZ x j := by
  unfold idftZ
  rw [show (∑ k, (fun k => c * x k) k * eZ n (j * k)) = c * ∑ k, x k * eZ n (j * k) from by
    rw [Finset.mul_sum]; exact Finset.sum_congr rfl fun k _ => by ring]
  rw [mul_div_assoc]

theorem dftZ_zero_fun {n : ℕ} [NeZero n] (k : ZMod n) :
    dftZ (fun _ => (0 : ℂ)) k = 0 := by
  unfold dftZ
  simp

theorem idftZ_zero_fun {n : ℕ} [NeZero n] (j : ZMod n) :
    idftZ (fun _ => (0 : ℂ)) j = 0 := by
  unfold idftZ
  simp

/-- Fourier inversion: `ifft (fft x) = x` for `n`-point transforms. -/
theorem idftZ_dftZ {n : ℕ} [NeZero n] (x : ZMod n → ℂ) (j : ZMod n) :
    idftZ (dftZ x) j = x j := by
  have hn : (n : ℂ) ≠ 0 := Nat.cast_ne_zero.mpr (NeZero.ne n)
  unfold idftZ dftZ
  have h1 : ∀ k : ZMod n, (∑ l, x l * eZ n (-(l * k))) * eZ n (j * k)
      = ∑ l, x l * eZ n (k * (j - l)) := by
    intro k
    rw [Finset.sum_mul]
    refine Finset.sum_congr rfl fun l _ => ?_
    rw [mul_assoc, ← eZ_add]
    congr 2
    ring
  calc (∑ k, (∑ l, x l * eZ n (-(l * k))) * eZ n (j * k)) / n
      = (∑ k, ∑ l, x l * eZ n (k * (j - l))) / n := by
        congr 1
        exact Finset.sum_congr rfl fun k _ => h1 k
    _ = (∑ l, x l * ∑ k, eZ n (k * (j - l))) / n := by
        rw [Finset.sum_comm]
        congr 1
        exact Finset.sum_congr rfl fun l _ => by rw [Finset.mul_sum]
    _ = x j := by
        have h2 : ∀ l : ZMod n, x l * (∑ k, eZ n (k * (j - l)))
            = if l = j then x l * n else 0 := by
          intro l
          rw [sum_eZ_mul]
          by_cases hl : l = j
          · subst hl
            simp
          · have : j - l ≠ 0 := sub_ne_zero.mpr (Ne.symm hl)
            simp [this, hl]
        rw [Finset.sum_congr rfl fun l _ => h2 l, Finset.sum_ite_eq' Finset.univ j
          (fun l => x l * n)]
        simp [hn]

/-- Fourier inversion the other way: `fft (ifft x) = x`. -/
theorem dftZ_idftZ {n : ℕ} [NeZero n] (x : ZMod n → ℂ) (k : ZMod n) :
    dftZ (idftZ x) k = x k := by
  have hn : (n : ℂ) ≠ 0 := Nat.cast_ne_zero.mpr (NeZero.ne n)
  unfold idftZ dftZ
  have h1 : ∀ j : ZMod n, (∑ l, x l * eZ n (j * l)) / n * eZ n (-(j * k))
      = ∑ l, x l * eZ n (j * (l - k)) / n := by
    intro j
    rw [div_mul_eq_mul_div, Finset.sum_mul, Finset.sum_div]
    refine Finset.sum_congr rfl fun l _ => ?_
    rw [mul_assoc, ← eZ_add]
    congr 2
    ring_nf
  calc ∑ j, (∑ l, x l * eZ n (j * l)) / n * eZ n (-(j * k))
      = ∑ j, ∑ l, x l * eZ n (j * (l - k)) / n := Finset.sum_congr rfl fun j _ => h1 j
    _ = ∑ l, (x l * ∑ j, eZ n (j * (l - k))) / n := by
        rw [Finset.sum_comm]
        refine Finset.sum_congr rfl fun l _ => ?_
        rw [Finset.mul_sum, Finset.sum_div]
    _ = x k := by
        have h2 : ∀ l : ZMod n, (x l * ∑ j, eZ n (j * (l - k))) / n
            = if l = k then x l * n / n else 0 := by
          intro l
          rw [sum_eZ_mul]
          by_cases hl : l = k
          · subst hl
            simp
          · have : l - k ≠ 0 := sub_ne_zero.mpr hl
            simp [this, hl]
        rw [Finset.sum_congr rfl fun l _ => h2 l, Finset.sum_ite_eq' Finset.univ k
          (fun l => x l * n / n)]
        simp [hn]

/-! ## Shift, conjugation and correlation identities

These express the frequency-domain operations of `_apply_filter` and
`_fft_correlate` in time-domain form. -/

/-- Real vector viewed as a complex vector. -/
def cR {n : ℕ} (x : ZMod n → ℝ) : ZMod n → ℂ := fun j => (x j : ℂ)

/-- Spike train with a single spike of amplitude `c` at position `i`
(the unit of `deconv_iter`'s greedy updates). -/
def spike {n : ℕ} (i : ZMod n) (c : ℝ) : ZMod n → ℝ :=
  fun j => if j = i then c else 0

theorem dftZ_spike {n : ℕ} [NeZero n] (i : ZMod n) (c : ℝ) (k : ZMod n) :
    dftZ (cR (spike i c)) k = (c : ℂ) * eZ n (-(i * k)) := by
  unfold dftZ cR spike
  rw [Finset.sum_eq_single i]
  · simp
  · intro b _ hb
    simp [hb]
  · intro h
    exact absurd (Finset.mem_univ i) h

theorem idftZ_mul_shift {n : ℕ} [NeZero n] (Y : ZMod n → ℂ) (i j : ZMod n) :
    idftZ (fun k => Y k * eZ n (-(i * k))) j = idftZ Y (j - i) := by
  unfold idftZ
  congr 1
  refine Finset.sum_congr rfl fun k _ => ?_
  rw [mul_assoc, ← eZ_add]
  congr 2
  ring

theorem conj_dftZ_real {n : ℕ} [NeZero n] (x : ZMod n → ℝ) (k : ZMod n) :
    conj (dftZ (cR x) k) = dftZ (cR x) (-k) := by
  unfold dftZ cR
  rw [map_sum]
  refine Finset.sum_congr rfl fun j _ => ?_
  rw [map_mul, Complex.conj_ofReal, conj_eZ, neg_neg]
  congr 2
  ring

/-- A spectrum that is conjugate-symmetric has a real inverse transform;
this justifies dropping the `.real` in the middle of `deconv_iter`'s filter
pipelines. -/
theorem idftZ_im_of_conjSymm {n : ℕ} [NeZero n] (Y : ZMod n → ℂ)
    (hY : ∀ k, conj (Y k) = Y (-k)) (j : ZMod n) : (idftZ Y j).im = 0 := by
  rw [← Complex.conj_eq_iff_im]
  unfold idftZ
  rw [map_div₀, map_sum]
  have hterm : ∀ k : ZMod n, conj (Y k * eZ n (j * k)) = Y (-k) * eZ n (j * -k) := by
    intro k
    rw [map_mul, hY k, conj_eZ]
    congr 2
    ring
  rw [Finset.sum_congr rfl fun k _ => hterm k]
  have hsum : ∑ k : ZMod n, Y (-k) * eZ n (j * -k) = ∑ k : ZMod n, Y k * eZ n (j * k) :=
    Fintype.sum_equiv (Equiv.neg (ZMod n)) _ _ (fun k => by simp)
  rw [hsum]
  norm_num [Complex.conj_natCast]

/-- The `_fft_correlate` identity: `ifft (fft x * conj (fft y))` at lag `i`
is the circular cross-correlation `sum_j x j * y (j - i)`. -/
theorem fftCorrelateZ_eq {n : ℕ} [NeZero n] (x y : ZMod n → ℝ) (i : ZMod n) :
    idftZ (fun k => dftZ (cR x) k * conj (dftZ (cR y) k)) i
      = ((∑ j, x j * y (j - i) : ℝ) : ℂ) := by
  have hn : (n : ℂ) ≠ 0 := Nat.cast_ne_zero.mpr (NeZero.ne n)
  have hconj : ∀ k : ZMod n, conj (dftZ (cR y) k) = ∑ l, (y l : ℂ) * eZ n (l * k) := by
    intro k
    unfold dftZ cR
    rw [map_sum]
    refine Finset.sum_congr rfl fun l _ => ?_
    rw [map_mul, Complex.conj_ofReal, conj_eZ, neg_neg]
  unfold idftZ
  have hterm : ∀ k : ZMod n,
      (fun k => dftZ (cR x) k * conj (dftZ (cR y) k)) k * eZ n (i * k)
        = ∑ j, ∑ l, (x j : ℂ) * (y l : ℂ) * eZ n (k * (i + l - j)) := by
    intro k
    simp only
    rw [hconj k]
    unfold dftZ cR
    rw [Finset.sum_mul_sum, Finset.sum_mul]
    refine Finset.sum_congr rfl fun j _ => ?_
    rw [Finset.sum_mul]
    refine Finset.sum_congr rfl fun l _ => ?_
    have he : eZ n (-(j * k)) * eZ n (l * k) * eZ n (i * k) = eZ n (k * (i + l - j)) := by
      rw [← eZ_add, ← eZ_add]
      congr 1
      ring
    linear_combination ((x j : ℂ) * (y l : ℂ)) * he
  rw [Finset.sum_congr rfl fun k _ => hterm k]
  rw [Finset.sum_comm]
  have hswap : ∀ j : ZMod n,
      (∑ k : ZMod n, ∑ l : ZMod n, (x j : ℂ) * (y l : ℂ) * eZ n (k * (i + l - j)))
        = ∑ l : ZMod n, (x j : ℂ) * (y l : ℂ) * ∑ k : ZMod n, eZ n (k * (i + l - j)) := by
    intro j
    rw [Finset.sum_comm]
    exact Finset.sum_congr rfl fun l _ => by rw [Finset.mul_sum]
  rw [Finset.sum_congr rfl fun j _ => hswap j]
  have hinner : ∀ j : ZMod n,
      (∑ l : ZMod n, (x j : ℂ) * (y l : ℂ) * ∑ k : ZMod n, eZ n (k * (i + l - j)))
        = (x j : ℂ) * (y (j - i) : ℂ) * n := by
    intro j
    have hsel : ∀ l : ZMod n, (x j : ℂ) * (y l : ℂ) * ∑ k : ZMod n, eZ n (k * (i + l - j))
        = if l = j - i then (x j : ℂ) * (y l : ℂ) * n else 0 := by
      intro l
      rw [sum_eZ_mul]
      by_cases hl : l = j - i
      · have : i + l - j = 0 := by rw [hl]; ring
        simp [hl, this]
      · have : i + l - j ≠ 0 := by
          intro hc
          exact hl (by linear_combination hc)
        simp [this, hl]
    rw [Finset.sum_congr rfl fun l _ => hsel l,
      Finset.sum_ite_eq' Finset.univ (j - i) (fun l => (x j : ℂ) * (y l : ℂ) * n)]
    simp
  rw [Finset.sum_congr rfl fun j _ => hinner j]
  rw [Finset.sum_div]
  push_cast
  refine Finset.sum_congr rfl fun j _ => ?_
  field_simp

/-- Shifting a vector circularly does not change its sum of squares. -/
theorem sum_shift_sq {n : ℕ} [NeZero n] (x : ZMod n → ℝ) (i : ZMod n) :
    ∑ j : ZMod n, x (j - i) ^ 2 = ∑ j : ZMod n, x j ^ 2 :=
  Fintype.sum_equiv (Equiv.subRight i) _ _ (fun _ => rfl)

/-- Shifted inner product bound used for the matching-pursuit residual:
subtracting the orthogonal-projection multiple of `h` from `r` cannot
increase the sum of squares. -/
theorem proj_residual_le {n : ℕ} [NeZero n] (r h : ZMod n → ℝ) (c : ℝ)
    (hc : c = (∑ j, r j * h j) / (∑ j, h j ^ 2)) :
    ∑ j : ZMod n, (r j - c * h j) ^ 2 ≤ ∑ j : ZMod n, r j ^ 2 := by
  set E : ℝ := ∑ j : ZMod n, h j ^ 2 with hE
  set S : ℝ := ∑ j : ZMod n, r j * h j with hS
  have hexp : ∑ j : ZMod n, (r j - c * h j) ^ 2
      = (∑ j : ZMod n, r j ^ 2) - 2 * c * S + c ^ 2 * E := by
    have hterm : ∀ j : ZMod n,
        (r j - c * h j) ^ 2 = r j ^ 2 - 2 * c * (r j * h j) + c ^ 2 * h j ^ 2 :=
      fun j => by ring
    rw [Finset.sum_congr rfl fun j _ => hterm j, Finset.sum_add_distrib,
      Finset.sum_sub_distrib, ← Finset.mul_sum, ← Finset.mul_sum, ← hS, ← hE]
  rw [hexp]
  by_cases hE0 : E = 0
  · have hsum0 : ∑ j : ZMod n, h j ^ 2 = 0 := by rw [← hE]; exact hE0
    have hnn : ∀ j ∈ Finset.univ, (0 : ℝ) ≤ h j ^ 2 := fun j _ => sq_nonneg _
    have hz : ∀ j : ZMod n, h j = 0 := by
      intro j
      have h2 : h j ^ 2 = 0 :=
        (Finset.sum_eq_zero_iff_of_nonneg hnn).mp hsum0 j (Finset.mem_univ j)
      exact pow_eq_zero_iff (two_ne_zero) |>.mp h2
    have hS0 : S = 0 := by
      rw [hS]
      exact Finset.sum_eq_zero fun j _ => by rw [hz j, mul_zero]
    rw [hS0, hE0]
    simp
  · have hEpos : 0 < E := by
      rcases lt_or_eq_of_le (Finset.sum_nonneg fun (j : ZMod n) _ => sq_nonneg (h j)) with h1 | h1
      · rw [hE]; exact h1
      · exact absurd (by rw [hE]; exact h1.symm) hE0
    have hcS : c * E = S := by
      rw [hc]
      field_simp
    have h2cs : 2 * c * S - c ^ 2 * E = c ^ 2 * E := by
      have hSc : S = c * E := hcS.symm
      rw [hSc]
      ring
    have hfinal : 0 ≤ 2 * c * S - c ^ 2 * E := by
      rw [h2cs]
      exact mul_nonneg (sq_nonneg c) (le_of_lt hEpos)
    linarith

/-! ## numpy array helpers at the list level -/

/-- `np.max` of a real array.  numpy rejects empty arrays; the `headD 0`
start only makes the Lean function total. -/
def npMaxR (l : List ℝ) : ℝ := l.foldl max (l.headD 0)

/-- numpy compares complex values lexicographically (real part first, then
imaginary part); this is the binary `np.maximum` on complex scalars. -/
def lexMaxC (a b : ℂ) : ℂ :=
  if a.re < b.re ∨ (a.re = b.re ∧ a.im < b.im) then b else a

/-- `np.max` of a complex array (lexicographic, as numpy does). -/
def npMaxC (l : List ℂ) : ℂ := l.foldl lexMaxC (l.headD 0)

/-- `np.max(np.abs(l))` for a real array. -/
def maxAbsR (l : List ℝ) : ℝ := npMaxR (l.map (fun v => |v|))

/-- `np.max(np.abs(l))` for a complex array. -/
def maxAbsC (l : List ℂ) : ℝ := npMaxR (l.map Complex.abs)

theorem foldl_max_init_le (l : List ℝ) (a : ℝ) : a ≤ l.foldl max a := by
  induction l generalizing a with
  | nil => simp
  | cons x xs ih => exact le_trans (le_max_left a x) (ih (max a x))

theorem le_foldl_max (l : List ℝ) (a : ℝ) : ∀ x ∈ l, x ≤ l.foldl max a := by
  induction l generalizing a with
  | nil => simp
  | cons y ys ih =>
    intro x hx
    rcases List.mem_cons.mp hx with h | h
    · subst h
      exact le_trans (le_max_right a x) (foldl_max_init_le ys (max a x))
    · exact ih (max a y) x h

theorem foldl_max_eq_init_or_mem (l : List ℝ) (a : ℝ) :
    l.foldl max a = a ∨ l.foldl max a ∈ l := by
  induction l generalizing a with
  | nil => left; rfl
  | cons y ys ih =>
    rcases ih (max a y) with h | h
    · rcases max_cases a y with ⟨h1, _⟩ | ⟨h1, _⟩
      · left
        simpa [List.foldl_cons, h1] using h
      · right
        rw [List.foldl_cons, h, h1]
        exact List.mem_cons_self y ys
    · right
      exact List.mem_cons_of_mem y h

theorem maxAbsR_nonneg (l : List ℝ) : 0 ≤ maxAbsR l := by
  unfold maxAbsR npMaxR
  cases l with
  | nil => simp
  | cons x xs =>
    refine le_trans (abs_nonneg x) ?_
    exact foldl_max_init_le _ _

theorem abs_le_maxAbsR (l : List ℝ) : ∀ x ∈ l, |x| ≤ maxAbsR l := by
  intro x hx
  unfold maxAbsR npMaxR
  exact le_foldl_max _ _ |x| (List.mem_map_of_mem _ hx)

theorem maxAbsR_mem_abs (l : List ℝ) (hne : l ≠ []) :
    ∃ x ∈ l, maxAbsR l = |x| := by
  unfold maxAbsR npMaxR
  rcases foldl_max_eq_init_or_mem (l.map fun v => |v|) ((l.map fun v => |v|).headD 0) with h | h
  · cases l with
    | nil => exact absurd rfl hne
    | cons y ys =>
      refine ⟨y, List.mem_cons_self y ys, ?_⟩
      simpa using h
  · rcases List.mem_map.mp h with ⟨x, hx, hfx⟩
    exact ⟨x, hx, hfx.symm⟩

theorem maxAbsR_map_mul (c : ℝ) (l : List ℝ) :
    maxAbsR (l.map (fun v => c * v)) = |c| * maxAbsR l := by
  unfold maxAbsR npMaxR
  rw [List.map_map]
  have habs : (fun v => |v|) ∘ (fun v => c * v) = fun v => |c| * |v| := by
    funext v
    simp [abs_mul]
  rw [habs]
  have hgen : ∀ (m : List ℝ) (a : ℝ),
      (m.map fun v => |c| * |v|).foldl max (|c| * a)
        = |c| * (m.map fun v => |v|).foldl max a := by
    intro m
    induction m with
    | nil => intro a; simp
    | cons y ys ih =>
      intro a
      rw [List.map_cons, List.map_cons, List.foldl_cons, List.foldl_cons,
        ← mul_max_of_nonneg _ _ (abs_nonneg c)]
      exact ih (max a |y|)
  cases l with
  | nil => simp
  | cons y ys =>
    rw [List.map_cons, List.map_cons]
    simp only [List.headD_cons]
    exact hgen (y :: ys) |y|

/-- Shared normalization epilogue of `deconvt`, `deconv_iter` and
`deconv_multi`: `norm = 1 / np.max(np.abs(RF[normalize]))`, then every row
is multiplied by `norm` in place. -/
def normScaleR (normalize : Option ℕ) (rows : List (List ℝ)) : List (List ℝ) :=
  match normalize with
  | Option.none => rows
  | Option.some i =>
    let norm := 1 / maxAbsR (rows.getD i [])
    rows.map (fun row => row.map (fun v => norm * v))

theorem normScaleR_none (rows : List (List ℝ)) :
    normScaleR Option.none rows = rows := rfl

theorem getD_map_lt {α β : Type} (f : α → β) (l : List α) (i : ℕ) (d : β)
    (d' : α) (hi : i < l.length) : (l.map f).getD i d = f (l.getD i d') := by
  rw [List.getD_eq_getElem?_getD, List.getD_eq_getElem?_getD, List.getElem?_map]
  rw [List.getElem?_eq_getElem hi]
  simp

/-- After `normScaleR (some i)`, the designated row has max abs value `1`
(provided its pre-normalization max abs value was nonzero), and every row is
the original row scaled by the common factor. -/
theorem normScaleR_spec (rows : List (List ℝ)) (i : ℕ)
    (hnz : maxAbsR (rows.getD i []) ≠ 0) :
    maxAbsR ((normScaleR (Option.some i) rows).getD i []) = 1 ∧
      ∀ k : ℕ, (normScaleR (Option.some i) rows).getD k []
        = (rows.getD k []).map (fun v => (1 / maxAbsR (rows.getD i [])) * v) := by
  have hrow : ∀ k : ℕ, (normScaleR (Option.some i) rows).getD k []
      = (rows.getD k []).map (fun v => (1 / maxAbsR (rows.getD i [])) * v) := by
    intro k
    by_cases hk : k < rows.length
    · exact getD_map_lt _ rows k [] [] hk
    · have hk2 : rows.length ≤ k := by omega
      have h1 : rows.getD k ([] : List ℝ) = [] := List.getD_eq_default _ _ hk2
      have h2 : (normScaleR (Option.some i) rows).getD k [] = [] := by
        refine List.getD_eq_default _ _ ?_
        simp only [normScaleR, List.length_map]
        exact hk2
      rw [h1, h2]
      simp
  refine ⟨?_, hrow⟩
  rw [hrow i, maxAbsR_map_mul]
  have hpos : 0 < maxAbsR (rows.getD i []) :=
    lt_of_le_of_ne (maxAbsR_nonneg _) (Ne.symm hnz)
  rw [abs_of_pos (by positivity), one_div, inv_mul_cancel₀ hnz]

/-! ## `__find_nearest` and the onset-snapping step of `deconvolve` -/

/-- `np.searchsorted(array, v, side='left')`: on sorted input the insertion
point equals the number of elements strictly below `v` (modelled from the
numpy documentation; numpy's binary search agrees with this count on sorted
arrays). -/
def searchsortedLeft (l : List ℝ) (v : ℝ) : ℕ :=
  l.countP (fun t => decide (t < v))

/-- Python/numpy indexing with wrap-around for negative indices
(`a[-1]` is the last element). -/
def pyGet (l : List ℝ) (i : ℤ) : ℝ :=
  if i < 0 then l.getD (l.length - (-i).toNat) 0 else l.getD i.toNat 0

/-- `__find_nearest` from `rf/deconvolve.py`.  The comparison line
`np.abs(value - array[idx - 1]) < np.abs(value - array[idx])` is evaluated
eagerly, before the guard `idx == len(array)`, so `idx == len(array)`
raises IndexError (modelled as `none`); `array[idx - 1]` at `idx = 0` is
numpy wrap-around indexing and does not raise on nonempty arrays. -/
def findNearest (array : List ℝ) (value : ℝ) : Option ℕ :=
  let idx := searchsortedLeft array value
  if idx = array.length then Option.none
  else if idx > 0 ∧ (idx = array.length ∨
      |value - pyGet array ((idx : ℤ) - 1)| < |value - array.getD idx 0|) then
    Option.some (idx - 1)
  else Option.some idx

/-- Onset snapping of `deconvolve` (`rf/deconvolve.py` lines 95–98): snap
the stream onset to the nearest sample time of the source trace and store
the snapped onset in the source and in every response trace.
`src.times()` is `[0, delta, 2*delta, ...]` with `npts` entries (modelled
from the obspy documentation) and the value searched for is
`onset - starttime`. -/
def snapOnsets (npts : ℕ) (delta starttime onset : ℝ) (rspOnsets : List ℝ) :
    Except String (ℝ × List ℝ) :=
  let times := List.ofFn (fun i : Fin npts => (i : ℝ) * delta)
  match findNearest times (onset - starttime) with
  | Option.none => Except.error "IndexError"
  | Option.some idx =>
      let newOnset := starttime + idx * delta
      Except.ok (newOnset, rspOnsets.map (fun _ => newOnset))

/-! ## Correlation primitives of the time-domain method -/

/-- `scipy.signal.correlate(a, b, 'valid')` (modelled from the scipy
documentation): `len(a) - len(b) + 1` output points, entry `i` equal to
`sum_j a[i+j] * b[j]`.  scipy raises when `len(a) < len(b)`; the Nat
truncation then yields an empty list instead. -/
def correlateValid (a b : List ℝ) : List ℝ :=
  List.ofFn (fun i : Fin (a.length + 1 - b.length) =>
    ∑ j ∈ Finset.range b.length, a.getD (i.val + j) 0 * b.getD j 0)

/-- `_add_zeros` from `rf/deconvolve.py`. -/
def addZeros (a : List ℝ) (numl numr : ℕ) : List ℝ :=
  List.replicate numl 0 ++ a ++ List.replicate numr 0

/-- `_acorrt` from `rf/deconvolve.py`. -/
def acorrt (a : List ℝ) (num : ℕ) : List ℝ :=
  correlateValid (addZeros a 0 (num - 1)) a

/-- `_xcorrt` from `rf/deconvolve.py`; `dif` is computed in ℤ exactly as
Python int arithmetic does, and `//` is Python floor division (equal to
Lean's `Int` division on the nonnegative values appearing here). -/
def xcorrt (a b : List ℝ) (num : ℕ) (zero_sample : ℤ) : List ℝ :=
  let a1 := if 0 < zero_sample then addZeros a (2 * zero_sample.natAbs) 0
            else if zero_sample < 0 then addZeros a 0 (2 * zero_sample.natAbs) else a
  let dif : ℤ := (a1.length : ℤ) - b.length + 1 - num
  if 0 < dif then
    correlateValid a1 (addZeros b ((dif + 1) / 2).toNat (dif / 2).toNat)
  else
    correlateValid (addZeros a1 ((-dif + 1) / 2).toNat ((-dif) / 2).toNat) b

theorem correlateValid_length (a b : List ℝ) :
    (correlateValid a b).length = a.length + 1 - b.length := by
  unfold correlateValid
  rw [List.length_ofFn]

theorem addZeros_length (a : List ℝ) (numl numr : ℕ) :
    (addZeros a numl numr).length = numl + a.length + numr := by
  unfold addZeros
  simp [List.length_append]
  omega

theorem acorrt_length (a : List ℝ) (num : ℕ) (h : 1 ≤ num) :
    (acorrt a num).length = num := by
  unfold acorrt
  rw [correlateValid_length, addZeros_length]
  omega

theorem xcorrt_length (a b : List ℝ) (num : ℕ) (zero_sample : ℤ) (h : 1 ≤ num) :
    (xcorrt a b num zero_sample).length = num := by
  unfold xcorrt
  set a1 := if 0 < zero_sample then addZeros a (2 * zero_sample.natAbs) 0
            else if zero_sample < 0 then addZeros a 0 (2 * zero_sample.natAbs) else a with ha1
  set dif : ℤ := (a1.length : ℤ) - b.length + 1 - num with hdif
  by_cases hpos : 0 < dif
  · rw [if_pos hpos, correlateValid_length, addZeros_length]
    omega
  · rw [if_neg hpos, correlateValid_length, addZeros_length]
    omega

/-! ## fft wrappers, frequency grids and filters -/

/-- Zero-pad / truncate a real list to an `n`-point vector, as
`scipy.fftpack.fft(x, n)` does before transforming. -/
def padZ {n : ℕ} (x : List ℝ) : ZMod n → ℝ := fun j => x.getD j.val 0

/-- `np.fft.fftfreq(n, d)` numerator: sample `k` corresponds to the signed
integer `k` for `2k < n` and `k - n` otherwise. -/
def fftfreqInt (n k : ℕ) : ℤ := if 2 * k < n then (k : ℤ) else (k : ℤ) - n

/-- `np.fft.fftfreq(n, d)`: frequency of FFT bin `k`. -/
def fftfreq (n : ℕ) (d : ℝ) (k : ZMod n) : ℝ := (fftfreqInt n k.val : ℝ) / (n * d)

theorem fftfreqInt_neg_sq (n : ℕ) [NeZero n] (k : ZMod n) :
    fftfreqInt n (-k).val ^ 2 = fftfreqInt n k.val ^ 2 := by
  have hk : k.val < n := ZMod.val_lt k
  by_cases h0 : k = 0
  · subst h0
    rw [neg_zero]
  · have hv : k.val ≠ 0 := fun hc => h0 ((ZMod.val_eq_zero k).mp hc)
    have hneg : (-k).val = n - k.val := by
      rw [ZMod.neg_val]
      simp [h0]
    rw [hneg]
    unfold fftfreqInt
    have hcast : ((n - k.val : ℕ) : ℤ) = (n : ℤ) - k.val := by omega
    rcases lt_trichotomy (2 * k.val) n with h1 | h1 | h1
    · have hc1 : ¬ (2 * (n - k.val) < n) := by omega
      rw [if_pos h1, if_neg hc1, hcast]
      ring
    · have hc1 : ¬ (2 * (n - k.val) < n) := by omega
      have hc2 : ¬ (2 * k.val < n) := by omega
      rw [if_neg hc1, if_neg hc2, hcast]
      have h1z : (n : ℤ) = 2 * k.val := by omega
      linear_combination (-(n : ℤ)) * h1z
    · have hc1 : 2 * (n - k.val) < n := by omega
      have hc2 : ¬ (2 * k.val < n) := by omega
      rw [if_neg hc2, if_pos hc1, hcast]
      ring

/-- `_gauss_filter(dt, nft, f0, waterlevel)` from `rf/deconvolve.py`:
Gaussian low-pass `exp(-0.5 (f/f0)^2)` with the exponent optionally floored
at `waterlevel`. -/
def gaussFilter (dt : ℝ) (nft : ℕ) (f0 : ℝ) (waterlevel : Option ℝ)
    (k : ZMod nft) : ℝ :=
  let f := fftfreq nft dt k
  let gauss_arg := -0.5 * (f / f0) ^ 2
  Real.exp (match waterlevel with
    | Option.none => gauss_arg
    | Option.some w => max gauss_arg w)

theorem gaussFilter_even (dt : ℝ) (nft : ℕ) [NeZero nft] (f0 : ℝ)
    (w : Option ℝ) (k : ZMod nft) :
    gaussFilter dt nft f0 w (-k) = gaussFilter dt nft f0 w k := by
  unfold gaussFilter fftfreq
  have h := fftfreqInt_neg_sq nft k
  have harg : (-0.5 : ℝ) * ((fftfreqInt nft (-k).val : ℝ) / (nft * dt) / f0) ^ 2
      = -0.5 * ((fftfreqInt nft k.val : ℝ) / (nft * dt) / f0) ^ 2 := by
    rw [div_pow, div_pow, div_pow, div_pow]
    have : ((fftfreqInt nft (-k).val : ℝ)) ^ 2 = ((fftfreqInt nft k.val : ℝ)) ^ 2 := by
      exact_mod_cast congrArg (fun z : ℤ => (z : ℝ)) h
    rw [this]
  simp only
  rw [harg]

theorem gaussFilter_pos (dt : ℝ) (nft : ℕ) (f0 : ℝ) (w : Option ℝ)
    (k : ZMod nft) : 0 < gaussFilter dt nft f0 w k :=
  Real.exp_pos _

/-- `_phase_shift_filter(nft, dt, tshift)` from `rf/deconvolve.py`:
`exp(-2j * pi * freq * tshift)`. -/
def phaseShiftFilter (nft : ℕ) (dt tshift : ℝ) (k : ZMod nft) : ℂ :=
  Complex.exp (-2 * Complex.I * Real.pi * fftfreq nft dt k * tshift)

theorem phaseShiftFilter_tshift_zero (nft : ℕ) (dt : ℝ) (k : ZMod nft) :
    phaseShiftFilter nft dt 0 k = 1 := by
  unfold phaseShiftFilter
  norm_num

/-- `_apply_filter(x, filt, dt)` from `rf/deconvolve.py`:
`ifft(fft(x, nft) * filt, nft).real` (the `dt` argument is unused in the
source). -/
def applyFilterZ {n : ℕ} [NeZero n] (x : ZMod n → ℝ) (filt : ZMod n → ℂ)
    (j : ZMod n) : ℝ :=
  (idftZ (fun k => dftZ (cR x) k * filt k) j).re

/-- `_fft_correlate(a, b, nft)` from `rf/deconvolve.py`:
`ifft(fft(a, nft) * conj(fft(b, nft)), nft).real`. -/
def fftCorrelateZ {n : ℕ} [NeZero n] (a b : ZMod n → ℝ) (i : ZMod n) : ℝ :=
  (idftZ (fun k => dftZ (cR a) k * conj (dftZ (cR b) k)) i).re

theorem fftCorrelateZ_eq_sum {n : ℕ} [NeZero n] (a b : ZMod n → ℝ) (i : ZMod n) :
    fftCorrelateZ a b i = ∑ j, a j * b (j - i) := by
  unfold fftCorrelateZ
  rw [fftCorrelateZ_eq]
  rw [Complex.ofReal_re]

theorem applyFilterZ_zero {n : ℕ} [NeZero n] (filt : ZMod n → ℂ) (j : ZMod n) :
    applyFilterZ (fun _ => (0 : ℝ)) filt j = 0 := by
  unfold applyFilterZ
  have h0 : ∀ k : ZMod n, dftZ (cR fun _ => (0 : ℝ)) k = 0 := by
    intro k
    unfold dftZ cR
    simp
  have : (fun k => dftZ (cR fun _ => (0 : ℝ)) k * filt k) = fun _ => (0 : ℂ) := by
    funext k
    rw [h0 k, zero_mul]
  rw [this, idftZ_zero_fun]
  simp

theorem fftCorrelateZ_zero_left {n : ℕ} [NeZero n] (b : ZMod n → ℝ) (i : ZMod n) :
    fftCorrelateZ (fun _ => (0 : ℝ)) b i = 0 := by
  rw [fftCorrelateZ_eq_sum]
  simp

/-! ## `next_fast_len` -/

/-- Fuel-driven 5-smoothness test. -/
def fastLenFuel : ℕ → ℕ → Bool
  | 0, _ => false
  | fuel + 1, m =>
    if m = 1 then true
    else if m = 0 then false
    else if m % 2 = 0 then fastLenFuel fuel (m / 2)
    else if m % 3 = 0 then fastLenFuel fuel (m / 3)
    else if m % 5 = 0 then fastLenFuel fuel (m / 5)
    else false

/-- A number is a valid scipy fast FFT length when it factors into 2, 3
and 5 only. -/
def fastLenB (m : ℕ) : Bool := fastLenFuel m m

theorem fastLenFuel_pow_two : ∀ (k fuel : ℕ), 2 ^ k ≤ fuel →
    fastLenFuel fuel (2 ^ k) = true := by
  intro k
  induction k with
  | zero =>
    intro fuel hf
    cases fuel with
    | zero => omega
    | succ f => simp [fastLenFuel]
  | succ k ih =>
    intro fuel hf
    have h2 : 2 ^ (k + 1) = 2 * 2 ^ k := by ring
    have hpos : 1 ≤ 2 ^ k := Nat.one_le_two_pow
    cases fuel with
    | zero => omega
    | succ f =>
      have hne1 : 2 ^ (k + 1) ≠ 1 := by
        rw [h2]; omega
      have hne0 : 2 ^ (k + 1) ≠ 0 := by positivity
      have hmod : 2 ^ (k + 1) % 2 = 0 := by
        rw [h2]; omega
      have hdiv : 2 ^ (k + 1) / 2 = 2 ^ k := by
        rw [h2]; omega
      rw [show fastLenFuel (f + 1) (2 ^ (k + 1))
          = fastLenFuel f (2 ^ (k + 1) / 2) by
        simp [fastLenFuel, hne1, hne0, hmod]]
      rw [hdiv]
      refine ih f ?_
      have : 2 ^ k < 2 ^ (k + 1) := by
        rw [h2]; omega
      omega

theorem exists_fastLen (n : ℕ) : ∃ m, n ≤ m ∧ fastLenB m = true := by
  refine ⟨2 ^ n, le_of_lt (Nat.lt_two_pow n), ?_⟩
  unfold fastLenB
  exact fastLenFuel_pow_two n (2 ^ n) le_rfl

/-- `scipy.fftpack.next_fast_len` (modelled from the scipy documentation):
the smallest 5-smooth integer that is at least `n`. -/
def nextFastLen (n : ℕ) : ℕ := Nat.find (exists_fastLen n)

theorem nextFastLen_ge (n : ℕ) : n ≤ nextFastLen n :=
  (Nat.find_spec (exists_fastLen n)).1

theorem nextFastLen_ne_zero (n : ℕ) : nextFastLen n ≠ 0 := by
  intro h
  have := (Nat.find_spec (exists_fastLen n)).2
  rw [show Nat.find (exists_fastLen n) = nextFastLen n from rfl, h] at this
  simp [fastLenB, fastLenFuel] at this

theorem nextFastLen_eq_self (n : ℕ) (h : fastLenB n = true) :
    nextFastLen n = n := by
  unfold nextFastLen
  rw [Nat.find_eq_iff]
  exact ⟨⟨le_rfl, h⟩, fun m hm => by omega⟩

theorem fastLenB_one : fastLenB 1 = true := by decide

theorem fastLenB_two : fastLenB 2 = true := by decide

theorem fastLenB_four : fastLenB 4 = true := by decide

/-! ## `deconvf`: frequency-domain waterlevel deconvolution -/

/-- Input shape of `rsp_list` in `deconvf`: a bare array or a list of
arrays (the Python code distinguishes them with `isinstance`). -/
inductive RspList where
  | single (a : List ℝ)
  | multi (l : List (List ℝ))

/-- Output shape of `deconvf`: a single array or a list of arrays. -/
inductive RfOut where
  | single (a : List ℂ)
  | multi (l : List (List ℂ))

/-- `__get_length` from `rf/deconvolve.py`. -/
def getLength : RspList → ℕ
  | RspList.single a => a.length
  | RspList.multi l => (l.headD []).length

/-- The `normalize` argument of `deconvf`: `None`, the string `'src'`, or
an integer index. -/
inductive NormMode where
  | null
  | src
  | idx (i : ℕ)

/-- The `spec_src_water` array of `deconvf`:
`np.maximum(np.abs(spec_src * spec_src_conj), max(...) * waterlevel)`. -/
def specSrcWater (src : List ℝ) (waterlevel : ℝ) (nfft : ℕ) [NeZero nfft]
    (k : ZMod nfft) : ℝ :=
  let spec_src : ZMod nfft → ℂ := dftZ (cR (padZ src))
  let water0 : ZMod nfft → ℝ := fun k => Complex.abs (spec_src k * conj (spec_src k))
  let wmax : ℝ := npMaxR (List.ofFn fun k : Fin nfft => water0 ((k : ℕ) : ZMod nfft))
  max (water0 k) (wmax * waterlevel)

/-- One un-normalized row of `deconvf`'s `rf_list` comprehension:
`ifft(ffilt * fft(rsp, nfft) * spec_src_conj / spec_src_water, nfft)[:N]`
with `ffilt = _gauss_filter(dt, nfft, gauss, waterlevel=-700) *
_phase_shift_filter(nfft, dt, tshift)`. -/
def deconvfRow (rsp src : List ℝ)
    (sampling_rate waterlevel gauss tshift : ℝ) (N nfft : ℕ) [NeZero nfft] :
    List ℂ :=
  let dt := 1 / sampling_rate
  let ffilt : ZMod nfft → ℂ := fun k =>
    (gaussFilter dt nfft gauss (Option.some (-700)) k : ℂ)
      * phaseShiftFilter nfft dt tshift k
  (List.ofFn fun i : Fin nfft =>
    idftZ (fun k => ffilt k * dftZ (cR (padZ rsp)) k * conj (dftZ (cR (padZ src)) k)
      / (specSrcWater src waterlevel nfft k : ℂ)) ((i : ℕ) : ZMod nfft)).take N

/-- All un-normalized rows of `deconvf`. -/
def deconvfRows (rspL : List (List ℝ)) (src : List ℝ)
    (sampling_rate waterlevel gauss tshift : ℝ) (N nfft : ℕ) [NeZero nfft] :
    List (List ℂ) :=
  rspL.map fun rsp => deconvfRow rsp src sampling_rate waterlevel gauss tshift N nfft

/-- `deconvf` from `rf/deconvolve.py` (the `return_info=False` paths).
Outputs are the complex arrays the Python function returns.  The
bare-array input path with `normalize=None` reaches `return rf` with the
loop variable `rf` unbound — a `NameError`, modelled as `Except.error`;
with normalization enabled, `rf` is the last element of the scaled
`rf_list`.  `nfft = 0` models numpy's rejection of zero-point FFTs. -/
def deconvf (rsp_list : RspList) (src : List ℝ) (sampling_rate : ℝ)
    (waterlevel gauss tshift : ℝ) (lengthOpt nfftOpt : Option ℕ)
    (normalize : NormMode) : Except String RfOut :=
  let N := lengthOpt.getD (getLength rsp_list)
  let nfft := nfftOpt.getD (nextFastLen N)
  if h : nfft = 0 then Except.error "ValueError: invalid number of FFT data points"
  else
    haveI : NeZero nfft := ⟨h⟩
    let rspL := match rsp_list with
      | RspList.single a => [a]
      | RspList.multi l => l
    let rf_list := deconvfRows rspL src sampling_rate waterlevel gauss tshift N nfft
    let rf_src := (deconvfRows [src] src sampling_rate waterlevel gauss tshift
      N nfft).headD []
    let norm : ℂ := match normalize with
      | NormMode.null => 1
      | NormMode.src => 1 / npMaxC rf_src
      | NormMode.idx i => 1 / npMaxC (rf_list.getD i [])
    let rf_scaled := match normalize with
      | NormMode.null => rf_list
      | _ => rf_list.map fun rf => rf.map fun v => v * norm
    match rsp_list, normalize with
    | RspList.single _, NormMode.null =>
        Except.error "NameError: name rf is not defined"
    | RspList.single _, _ =>
        Except.ok (RfOut.single (rf_scaled.getD (rf_scaled.length - 1) []))
    | RspList.multi _, _ => Except.ok (RfOut.multi rf_scaled)

theorem deconvfRow_length (rsp src : List ℝ)
    (sampling_rate waterlevel gauss tshift : ℝ) (N nfft : ℕ) [NeZero nfft] :
    (deconvfRow rsp src sampling_rate waterlevel gauss tshift N nfft).length
      = min N nfft := by
  unfold deconvfRow
  rw [List.length_take, List.length_ofFn]

/-- Zero-padding an all-zero list gives the zero vector. -/
theorem padZ_zero_of_all_zero {n : ℕ} (l : List ℝ) (hz : ∀ x ∈ l, x = 0) :
    (padZ l : ZMod n → ℝ) = fun _ => 0 := by
  funext i
  unfold padZ
  by_cases hi : i.val < l.length
  · rw [List.getD_eq_getElem l 0 hi]
    exact hz _ (l.getElem_mem hi)
  · exact List.getD_eq_default _ _ (by omega)

/-- An all-zero response produces an all-zero `deconvf` row before
normalization. -/
theorem deconvfRow_zero (rsp src : List ℝ)
    (sampling_rate waterlevel gauss tshift : ℝ) (N nfft : ℕ) [NeZero nfft]
    (hz : ∀ x ∈ rsp, x = 0) :
    ∀ v ∈ deconvfRow rsp src sampling_rate waterlevel gauss tshift N nfft,
      v = 0 := by
  intro v hv
  unfold deconvfRow at hv
  have hv2 := List.mem_of_mem_take hv
  rcases (List.mem_ofFn _ _).mp hv2 with ⟨i, hi⟩
  rw [← hi]
  have hpad := padZ_zero_of_all_zero (n := nfft) rsp hz
  have hdft : ∀ k : ZMod nfft, dftZ (cR (padZ rsp)) k = 0 := by
    intro k
    rw [hpad]
    unfold dftZ cR
    simp
  convert idftZ_zero_fun ((i : ℕ) : ZMod nfft) using 2
  funext k
  simp only
  rw [hdft k]
  ring

/-- C5's formula for a `deconvf` result, assembled from the spec's words
(§4.3): the first `length` samples of the inverse FFT of
`ffilt * FFT(response) * conj(FFT(source)) / D`, where `ffilt` is the
Gaussian low-pass `exp(-0.5 (f/f0)^2)` with its exponent floored to avoid
underflow, times the phase-shift term `exp(-2 pi i f tshift)`, and `D` is
the source power spectrum `FFT(source) * conj(FFT(source))` floored
pointwise at `waterlevel` times its own maximum. -/
def deconvfSpecRow (rsp src : List ℝ) (sampling_rate waterlevel gauss tshift : ℝ)
    (N nfft : ℕ) [NeZero nfft] : List ℂ :=
  let dt := 1 / sampling_rate
  let f : ZMod nfft → ℝ := fftfreq nfft dt
  let S : ZMod nfft → ℂ := dftZ (cR (padZ src))
  let R : ZMod nfft → ℂ := dftZ (cR (padZ rsp))
  let gaussLP : ZMod nfft → ℝ := fun k => Real.exp (max (-0.5 * (f k / gauss) ^ 2) (-700))
  let phase : ZMod nfft → ℂ := fun k => Complex.exp (-(2 * Real.pi * f k * tshift) * Complex.I)
  let powerSpec : ZMod nfft → ℝ := fun k => Complex.normSq (S k)
  let powerMax : ℝ := npMaxR (List.ofFn fun k : Fin nfft => powerSpec ((k : ℕ) : ZMod nfft))
  let D : ZMod nfft → ℝ := fun k => max (powerSpec k) (waterlevel * powerMax)
  (List.ofFn fun i : Fin nfft =>
    idftZ (fun k => (gaussLP k : ℂ) * phase k * R k * conj (S k) / (D k : ℂ))
      ((i : ℕ) : ZMod nfft)).take N

/-- The code's `rf_list` entry coincides with the spec's formula. -/
theorem deconvfRow_eq_spec (rsp src : List ℝ)
    (sampling_rate waterlevel gauss tshift : ℝ) (N nfft : ℕ) [NeZero nfft] :
    deconvfRow rsp src sampling_rate waterlevel gauss tshift N nfft
      = deconvfSpecRow rsp src sampling_rate waterlevel gauss tshift N nfft := by
  have habs : ∀ m : ZMod nfft,
      Complex.abs (dftZ (cR (padZ src)) m * conj (dftZ (cR (padZ src)) m))
        = Complex.normSq (dftZ (cR (padZ src)) m) := by
    intro m
    rw [Complex.mul_conj, Complex.abs_ofReal, abs_of_nonneg (Complex.normSq_nonneg _)]
  have hwater : ∀ k : ZMod nfft, specSrcWater src waterlevel nfft k
      = max (Complex.normSq (dftZ (cR (padZ src)) k))
        (waterlevel * npMaxR (List.ofFn fun m : Fin nfft =>
          Complex.normSq (dftZ (cR (padZ src)) ((m : ℕ) : ZMod nfft)))) := by
    intro k
    unfold specSrcWater
    simp only
    rw [habs k, mul_comm]
    have hlist : (List.ofFn fun m : Fin nfft =>
        Complex.abs (dftZ (cR (padZ src)) ((m : ℕ) : ZMod nfft)
          * conj (dftZ (cR (padZ src)) ((m : ℕ) : ZMod nfft))))
        = List.ofFn fun m : Fin nfft =>
            Complex.normSq (dftZ (cR (padZ src)) ((m : ℕ) : ZMod nfft)) := by
      refine congrArg List.ofFn ?_
      funext m
      exact habs _
    rw [hlist]
  have hphase : ∀ k : ZMod nfft, phaseShiftFilter nfft (1 / sampling_rate) tshift k
      = Complex.exp (-(2 * Real.pi * fftfreq nfft (1 / sampling_rate) k * tshift)
          * Complex.I) := by
    intro k
    unfold phaseShiftFilter
    congr 1
    ring
  have hgauss : ∀ k : ZMod nfft,
      gaussFilter (1 / sampling_rate) nfft gauss (Option.some (-700)) k
        = Real.exp (max (-0.5 * (fftfreq nfft (1 / sampling_rate) k / gauss) ^ 2)
            (-700)) := fun _ => rfl
  unfold deconvfRow deconvfSpecRow
  simp only
  refine congrArg (List.take N) ?_
  refine congrArg List.ofFn ?_
  funext i
  refine congrArg (fun F => idftZ F ((i : ℕ) : ZMod nfft)) ?_
  funext k
  rw [hwater k, hphase k, hgauss k]

/-! ## `deconvt`: time-domain deconvolution -/

theorem getD_zero_of_all_zero (l : List ℝ) (hz : ∀ x ∈ l, x = 0) (i : ℕ) :
    l.getD i 0 = 0 := by
  by_cases hi : i < l.length
  · rw [List.getD_eq_getElem l 0 hi]
    exact hz _ (l.getElem_mem hi)
  · exact List.getD_eq_default _ _ (by omega)

theorem addZeros_all_zero (a : List ℝ) (numl numr : ℕ)
    (hz : ∀ x ∈ a, x = 0) : ∀ x ∈ addZeros a numl numr, x = 0 := by
  intro x hx
  unfold addZeros at hx
  rcases List.mem_append.mp hx with hx1 | hx2
  · rcases List.mem_append.mp hx1 with hx3 | hx4
    · exact List.eq_of_mem_replicate hx3
    · exact hz x hx4
  · exact List.eq_of_mem_replicate hx2

theorem correlateValid_zero_left (a b : List ℝ) (hz : ∀ x ∈ a, x = 0) :
    ∀ v ∈ correlateValid a b, v = 0 := by
  intro v hv
  unfold correlateValid at hv
  rcases (List.mem_ofFn _ _).mp hv with ⟨i, hi⟩
  rw [← hi]
  refine Finset.sum_eq_zero fun j _ => ?_
  rw [getD_zero_of_all_zero a hz (i.val + j), zero_mul]

theorem xcorrt_zero_left (a b : List ℝ) (num : ℕ) (zero_sample : ℤ)
    (hz : ∀ x ∈ a, x = 0) : ∀ v ∈ xcorrt a b num zero_sample, v = 0 := by
  intro v hv
  unfold xcorrt at hv
  set a1 := if 0 < zero_sample then addZeros a (2 * zero_sample.natAbs) 0
            else if zero_sample < 0 then addZeros a 0 (2 * zero_sample.natAbs) else a with ha1
  have hza1 : ∀ x ∈ a1, x = 0 := by
    rw [ha1]
    split_ifs with h1 h2
    · exact addZeros_all_zero a _ _ hz
    · exact addZeros_all_zero a _ _ hz
    · exact hz
  simp only at hv
  split_ifs at hv with hdif
  · exact correlateValid_zero_left a1 _ hza1 v hv
  · exact correlateValid_zero_left _ b (addZeros_all_zero a1 _ _ hza1) v hv

/-- Symmetric Toeplitz matrix with first column `a`: the system matrix
that both `toeplitz.sto_sl` (job 0) and `scipy.linalg.solve_toeplitz`
solve against (modelled from the library documentation). -/
def toeplitzMat (a : List ℝ) : Matrix (Fin a.length) (Fin a.length) ℝ :=
  Matrix.of fun i j => a.getD ((i : ℤ) - (j : ℤ)).natAbs 0

/-- The external Toeplitz solvers used by `deconvt` (`toeplitz.sto_sl` or
`scipy.linalg.solve_toeplitz`), modelled from their documented semantics:
`x = T(a)⁻¹ b`.  `Matrix.inv` is zero on singular matrices, standing in
for whatever a numerical solver returns on a singular system. -/
def solveToeplitz (a b : List ℝ) : List ℝ :=
  List.ofFn fun i : Fin a.length =>
    ((toeplitzMat a)⁻¹.mulVec fun j : Fin a.length => b.getD j.val 0) i

theorem solveToeplitz_length (a b : List ℝ) :
    (solveToeplitz a b).length = a.length := by
  unfold solveToeplitz
  rw [List.length_ofFn]

theorem solveToeplitz_zero (a b : List ℝ) (hz : ∀ x ∈ b, x = 0) :
    ∀ v ∈ solveToeplitz a b, v = 0 := by
  intro v hv
  unfold solveToeplitz at hv
  rcases (List.mem_ofFn _ _).mp hv with ⟨i, hi⟩
  rw [← hi]
  have hb : (fun j : Fin a.length => b.getD j.val 0) = fun _ => 0 := by
    funext j
    exact getD_zero_of_all_zero b hz j.val
  rw [hb]
  have h0 : (fun _ : Fin a.length => (0 : ℝ)) = 0 := rfl
  rw [h0, Matrix.mulVec_zero]
  rfl

/-- `STS` of `deconvt`: `_acorrt(src, length)`, normalized by its zero-lag
entry, with `spiking` added to the zero-lag entry. -/
def deconvtSTS (src : List ℝ) (length : ℕ) (spiking : ℝ) : List ℝ :=
  let STS0 := acorrt src length
  let STS1 := STS0.map fun v => v / STS0.getD 0 0
  STS1.set 0 (STS1.getD 0 0 + spiking)

theorem deconvtSTS_length (src : List ℝ) (length : ℕ) (spiking : ℝ)
    (h : 1 ≤ length) : (deconvtSTS src length spiking).length = length := by
  unfold deconvtSTS
  simp only [List.length_set, List.length_map]
  exact acorrt_length src length h

/-- `deconvt` from `rf/deconvolve.py` (list-input path), with the Toeplitz
solver as an explicit strategy argument mirroring the `solve_toeplitz`
parameter of the Python function. -/
def deconvt (rsp_list : List (List ℝ)) (src : List ℝ) (shift : ℤ)
    (spiking : ℝ) (lengthOpt : Option ℕ) (normalize : Option ℕ)
    (solve : List ℝ → List ℝ → List ℝ) : List (List ℝ) :=
  let length := lengthOpt.getD (rsp_list.headD []).length
  let STS := deconvtSTS src length spiking
  let RF_list := rsp_list.map fun rsp => solve STS (xcorrt rsp src length shift)
  normScaleR normalize RF_list

/-- The `assert len(STR) == len(STS)` invariant inside `deconvt`'s
response loop. -/
def deconvtAssertOk (rsp_list : List (List ℝ)) (src : List ℝ) (shift : ℤ)
    (spiking : ℝ) (lengthOpt : Option ℕ) : Prop :=
  ∀ rsp ∈ rsp_list,
    (xcorrt rsp src (lengthOpt.getD (rsp_list.headD []).length) shift).length
      = (deconvtSTS src (lengthOpt.getD (rsp_list.headD []).length) spiking).length

/-! ## Linearity and shift identities for `_apply_filter` pipelines -/

theorem dftZ_shift {n : ℕ} [NeZero n] (x : ZMod n → ℂ) (i k : ZMod n) :
    dftZ (fun j => x (j - i)) k = eZ n (-(i * k)) * dftZ x k := by
  unfold dftZ
  rw [Finset.mul_sum]
  refine Fintype.sum_equiv (Equiv.subRight i) _ _ ?_
  intro j
  simp only [Equiv.coe_fn_mk, Equiv.subRight_apply]
  have he : eZ n (-(i * k)) * eZ n (-((j - i) * k)) = eZ n (-(j * k)) := by
    rw [← eZ_add]
    congr 1
    ring
  linear_combination (-(x (j - i))) * he

theorem applyFilterZ_add {n : ℕ} [NeZero n] (x y : ZMod n → ℝ)
    (f : ZMod n → ℂ) (j : ZMod n) :
    applyFilterZ (fun m => x m + y m) f j
      = applyFilterZ x f j + applyFilterZ y f j := by
  unfold applyFilterZ
  have hc : cR (fun m => x m + y m) = fun m => cR x m + cR y m := by
    funext m
    unfold cR
    push_cast
    rfl
  have h1 : (fun k => dftZ (cR fun m => x m + y m) k * f k)
      = fun k => dftZ (cR x) k * f k + dftZ (cR y) k * f k := by
    funext k
    rw [hc, dftZ_add]
    ring
  rw [h1, idftZ_add]
  simp

theorem applyFilterZ_smul {n : ℕ} [NeZero n] (c : ℝ) (x : ZMod n → ℝ)
    (f : ZMod n → ℂ) (j : ZMod n) :
    applyFilterZ (fun m => c * x m) f j = c * applyFilterZ x f j := by
  unfold applyFilterZ
  have hc : cR (fun m => c * x m) = fun m => (c : ℂ) * cR x m := by
    funext m
    unfold cR
    push_cast
    rfl
  have h1 : (fun k => dftZ (cR fun m => c * x m) k * f k)
      = fun k => (c : ℂ) * (dftZ (cR x) k * f k) := by
    funext k
    rw [hc, dftZ_smul]
    ring
  rw [h1, idftZ_smul]
  simp

/-- The full prediction pipeline of `deconv_iter` applied to a unit spike:
Gaussian-filtering a delta at `i` and convolving with the source spectrum
yields the filtered source circularly shifted by `i`. -/
theorem pipeline_spike {n : ℕ} [NeZero n] (gaussF : ZMod n → ℝ)
    (hgE : ∀ k, gaussF (-k) = gaussF k) (src : List ℝ) (i j : ZMod n) :
    applyFilterZ (applyFilterZ (spike i 1) (fun k => (gaussF k : ℂ)))
      (dftZ (cR (padZ src))) j
      = applyFilterZ (padZ src) (fun k => (gaussF k : ℂ)) (j - i) := by
  set g : ZMod n → ℂ := fun k => (gaussF k : ℂ) with hg
  have hsym : ∀ k, conj (g k) = g (-k) := by
    intro k
    rw [hg]
    simp only
    rw [Complex.conj_ofReal, hgE k]
  -- the inner filtered spike is a shifted copy of the real kernel of `g`
  have hinner : applyFilterZ (spike i 1) g
      = fun m => (idftZ g (m - i)).re := by
    funext m
    unfold applyFilterZ
    have h1 : (fun k => dftZ (cR (spike i 1)) k * g k)
        = fun k => g k * eZ n (-(i * k)) := by
      funext k
      rw [dftZ_spike]
      push_cast
      ring
    rw [h1, idftZ_mul_shift]
  have hker_real : ∀ m : ZMod n, (idftZ g m).im = 0 :=
    idftZ_im_of_conjSymm g hsym
  have hcr : cR (fun m => (idftZ g m).re) = idftZ g := by
    funext m
    unfold cR
    refine Complex.ext ?_ ?_
    · simp
    · simp [hker_real m]
  -- transform of the inner result: phase times the Gaussian spectrum
  have houter : dftZ (cR (applyFilterZ (spike i 1) g))
      = fun k => eZ n (-(i * k)) * g k := by
    funext k
    rw [hinner]
    have hshift : (cR fun m => (idftZ g (m - i)).re)
        = fun m => (cR fun m0 => (idftZ g m0).re) (m - i) := by
      funext m
      rfl
    rw [hshift, dftZ_shift, hcr, dftZ_idftZ]
  show (idftZ (fun k => dftZ (cR (applyFilterZ (spike i 1) g)) k
      * dftZ (cR (padZ src)) k) j).re
    = applyFilterZ (padZ src) g (j - i)
  have hfun : (fun k => dftZ (cR (applyFilterZ (spike i 1) g)) k
      * dftZ (cR (padZ src)) k)
      = fun k => (dftZ (cR (padZ src)) k * g k) * eZ n (-(i * k)) := by
    funext k
    rw [houter]
    ring
  rw [hfun, idftZ_mul_shift]
  rfl

/-! ## `deconv_iter`: iterative time-domain deconvolution -/

/-- `np.argmax(np.abs(f))` over the first `m` entries: first index of
maximal absolute value (numpy raises ValueError on an empty slice, i.e.
`m = 0`; the fold then returns `0`). -/
def argmaxAbs (f : ℕ → ℝ) (m : ℕ) : ℕ :=
  (List.range m).foldl (fun b i => if |f b| < |f i| then i else b) 0

/-- The loop state of `deconv_iter`'s per-component while loop. -/
structure IterState (n : ℕ) where
  p0 : ZMod n → ℝ
  rem : ZMod n → ℝ
  sumsq_i : ℝ
  d_error : ℝ
  it : ℕ
  rms : ℕ → ℝ

/-- One iteration of the while loop of `deconv_iter`
(`rf/deconvolve.py` lines 504–522). -/
def iterStep (n : ℕ) [NeZero n] (dt : ℝ) (gaussF : ZMod n → ℝ)
    (sft : ZMod n → ℂ) (s_flt r_flt : ZMod n → ℝ) (powerR : ℝ)
    (st : IterState n) : IterState n :=
  let rs : ℕ → ℝ := fun i =>
    fftCorrelateZ st.rem s_flt ((i : ℕ) : ZMod n) / ∑ j, s_flt j ^ 2
  let i1 : ℕ := argmaxAbs rs (n / 2 - 1)
  let amp := rs i1 / dt
  let p0' : ZMod n → ℝ := Function.update st.p0 ((i1 : ℕ) : ZMod n)
    (st.p0 ((i1 : ℕ) : ZMod n) + amp)
  let p_flt := applyFilterZ p0' (fun k => (gaussF k : ℂ))
  let p_flt2 : ZMod n → ℝ := fun j => applyFilterZ p_flt sft j * dt
  let rem' : ZMod n → ℝ := fun j => r_flt j - p_flt2 j
  let sumsq := (∑ j, rem' j ^ 2) / powerR
  { p0 := p0', rem := rem', sumsq_i := sumsq,
    d_error := 100 * (st.sumsq_i - sumsq), it := st.it + 1,
    rms := Function.update st.rms st.it sumsq }

/-- Pure iteration of `iterStep` (no stopping condition); `iterates m st`
is the state after `m` iterations starting from `st`. -/
def iterates (n : ℕ) [NeZero n] (dt : ℝ) (gaussF : ZMod n → ℝ)
    (sft : ZMod n → ℂ) (s_flt r_flt : ZMod n → ℝ) (powerR : ℝ) :
    ℕ → IterState n → IterState n
  | 0, st => st
  | m + 1, st => iterates n dt gaussF sft s_flt r_flt powerR m
      (iterStep n dt gaussF sft s_flt r_flt powerR st)

/-- The while condition of `deconv_iter`:
`np.abs(d_error) > minderr and it < itmax`. -/
def iterCond (n : ℕ) (minderr : ℝ) (itmax : ℕ) (st : IterState n) : Prop :=
  minderr < |st.d_error| ∧ st.it < itmax

/-- The fuel-bounded while loop of `deconv_iter`; called with
`fuel = itmax - it` it is exactly the Python loop. -/
def iterLoop (n : ℕ) [NeZero n] (dt : ℝ) (gaussF : ZMod n → ℝ)
    (sft : ZMod n → ℂ) (s_flt r_flt : ZMod n → ℝ) (powerR minderr : ℝ)
    (itmax : ℕ) : ℕ → IterState n → IterState n
  | 0, st => st
  | fuel + 1, st =>
    if minderr < |st.d_error| ∧ st.it < itmax then
      iterLoop n dt gaussF sft s_flt r_flt powerR minderr itmax fuel
        (iterStep n dt gaussF sft s_flt r_flt powerR st)
    else st

/-- Initial state of the while loop (`it = 0`, `sumsq_i = 1`,
`d_error = 100 * powerR + minderr`, `rms = np.zeros(itmax)`,
`p0 = np.zeros(nfft)`, `rem_flt = copy(r_flt)`). -/
def iterInit (n : ℕ) (r_flt : ZMod n → ℝ) (powerR minderr : ℝ) : IterState n :=
  { p0 := fun _ => 0, rem := r_flt, sumsq_i := 1,
    d_error := 100 * powerR + minderr, it := 0, rms := fun _ => 0 }

/-- Final state of `deconv_iter`'s while loop for one response trace
(source `src`, response `r0`). -/
def iterFinalState (src r0 : List ℝ) (sampling_rate : ℝ) (gauss : ℝ)
    (itmax : ℕ) (minderr : ℝ) : IterState src.length :=
  if h : src.length = 0 then
    { p0 := fun _ => 0, rem := fun _ => 0, sumsq_i := 1, d_error := 0,
      it := 0, rms := fun _ => 0 }
  else
    haveI : NeZero src.length := ⟨h⟩
    let nt := src.length
    let dt := 1 / sampling_rate
    let gaussF : ZMod nt → ℝ := gaussFilter dt nt gauss Option.none
    let r_flt := applyFilterZ (padZ r0) (fun k => (gaussF k : ℂ))
    let s_flt := applyFilterZ (padZ src) (fun k => (gaussF k : ℂ))
    let sft : ZMod nt → ℂ := dftZ (cR (padZ src))
    let powerR := ∑ j, r_flt j ^ 2
    iterLoop nt dt gaussF sft s_flt r_flt powerR minderr itmax itmax
      (iterInit nt r_flt powerR minderr)

/-- One response's output row and iteration count in `deconv_iter`
(the body of the `for c in range(ncomp)` loop, lines 484–529; `tshift`
enters only through the final phase-shift filter). -/
def iterComponent (src r0 : List ℝ) (sampling_rate tshift gauss : ℝ)
    (itmax : ℕ) (minderr : ℝ) : List ℝ × ℕ :=
  let nt := src.length
  if h : nt = 0 then ([], 0)
  else
    haveI : NeZero nt := ⟨h⟩
    let dt := 1 / sampling_rate
    let gaussF : ZMod nt → ℝ := gaussFilter dt nt gauss Option.none
    let stf := iterFinalState src r0 sampling_rate gauss itmax minderr
    let p_flt := applyFilterZ stf.p0 (fun k => (gaussF k : ℂ))
    let shift_filt := phaseShiftFilter nt dt tshift
    let p_out := applyFilterZ p_flt shift_filt
    (List.ofFn fun i : Fin nt => p_out ((i : ℕ) : ZMod nt), stf.it)

/-- `deconv_iter` from `rf/deconvolve.py`: returns the normalized spike
train rows and the per-component iteration counts (`nit` is a float array
in Python; its entries are the integer counts). -/
def deconv_iter (rsp : List (List ℝ)) (src : List ℝ) (sampling_rate : ℝ)
    (tshift gauss : ℝ) (itmax : ℕ) (minderr : ℝ) (normalize : Option ℕ) :
    List (List ℝ) × List ℕ :=
  let results := rsp.map fun r0 =>
    iterComponent src r0 sampling_rate tshift gauss itmax minderr
  (normScaleR normalize (results.map Prod.fst), results.map Prod.snd)

/-! ## Loop analysis for `deconv_iter` -/

/-- The prediction map of `deconv_iter`: spike train through the Gaussian
filter, convolved with the source spectrum (`sft`), scaled by `dt`. -/
def iterPredict (n : ℕ) [NeZero n] (dt : ℝ) (gaussF : ZMod n → ℝ)
    (src : List ℝ) (p : ZMod n → ℝ) (j : ZMod n) : ℝ :=
  applyFilterZ (applyFilterZ p (fun k => (gaussF k : ℂ)))
    (dftZ (cR (padZ src))) j * dt

theorem spike_smul {n : ℕ} (i : ZMod n) (c : ℝ) :
    spike i c = fun m => c * spike i 1 m := by
  funext m
  unfold spike
  by_cases hm : m = i
  · simp [hm]
  · simp [hm]

theorem update_eq_add_spike {n : ℕ} (p : ZMod n → ℝ) (i : ZMod n) (c : ℝ) :
    Function.update p i (p i + c) = fun m => p m + spike i c m := by
  funext m
  by_cases hm : m = i
  · subst hm
    rw [Function.update_same]
    simp [spike]
  · rw [Function.update_noteq hm]
    simp [spike, hm]

theorem iterPredict_add_spike (n : ℕ) [NeZero n] (dt : ℝ)
    (gaussF : ZMod n → ℝ) (hgE : ∀ k, gaussF (-k) = gaussF k) (src : List ℝ)
    (p : ZMod n → ℝ) (i : ZMod n) (c : ℝ) (j : ZMod n) :
    iterPredict n dt gaussF src (fun m => p m + spike i c m) j
      = iterPredict n dt gaussF src p j
        + c * applyFilterZ (padZ src) (fun k => (gaussF k : ℂ)) (j - i) * dt := by
  unfold iterPredict
  have hinner : applyFilterZ (fun m => p m + spike i c m) (fun k => (gaussF k : ℂ))
      = fun m => applyFilterZ p (fun k => (gaussF k : ℂ)) m
        + c * applyFilterZ (spike i 1) (fun k => (gaussF k : ℂ)) m := by
    funext m
    rw [applyFilterZ_add]
    congr 1
    rw [spike_smul]
    exact applyFilterZ_smul c _ _ m
  rw [hinner]
  have houter : applyFilterZ (fun m => applyFilterZ p (fun k => (gaussF k : ℂ)) m
      + c * applyFilterZ (spike i 1) (fun k => (gaussF k : ℂ)) m)
      (dftZ (cR (padZ src))) j
      = applyFilterZ (applyFilterZ p (fun k => (gaussF k : ℂ)))
          (dftZ (cR (padZ src))) j
        + c * applyFilterZ (applyFilterZ (spike i 1) (fun k => (gaussF k : ℂ)))
            (dftZ (cR (padZ src))) j := by
    rw [applyFilterZ_add]
    congr 1
    exact applyFilterZ_smul c _ _ j
  rw [houter, pipeline_spike gaussF hgE src i j]
  ring

/-- Core residual bound: one `iterStep` cannot increase the sum of squared
residuals, provided the state's residual is `r_flt` minus the prediction of
its spike train (the loop invariant). -/
theorem iterStep_sq_le (n : ℕ) [NeZero n] (dt : ℝ) (gaussF : ZMod n → ℝ)
    (hgE : ∀ k, gaussF (-k) = gaussF k) (src : List ℝ)
    (s_flt r_flt : ZMod n → ℝ)
    (hs : s_flt = applyFilterZ (padZ src) (fun k => (gaussF k : ℂ)))
    (powerR : ℝ) (st : IterState n)
    (hrem : st.rem = fun j => r_flt j - iterPredict n dt gaussF src st.p0 j) :
    (∑ j, (iterStep n dt gaussF (dftZ (cR (padZ src))) s_flt r_flt powerR
        st).rem j ^ 2)
      ≤ ∑ j, st.rem j ^ 2 := by
  set E : ℝ := ∑ j, s_flt j ^ 2 with hE
  set i1n : ℕ := argmaxAbs
    (fun i => fftCorrelateZ st.rem s_flt ((i : ℕ) : ZMod n) / E) (n / 2 - 1)
    with hi1
  set i : ZMod n := ((i1n : ℕ) : ZMod n) with hiz
  set corr : ℝ := fftCorrelateZ st.rem s_flt i with hcorr
  have hnew : (iterStep n dt gaussF (dftZ (cR (padZ src))) s_flt r_flt powerR
      st).rem
      = fun j => r_flt j - iterPredict n dt gaussF src
          (Function.update st.p0 i (st.p0 i + corr / E / dt)) j := rfl
  have hdecomp : Function.update st.p0 i (st.p0 i + corr / E / dt)
      = fun m => st.p0 m + spike i (corr / E / dt) m :=
    update_eq_add_spike st.p0 i (corr / E / dt)
  have hnew2 : (iterStep n dt gaussF (dftZ (cR (padZ src))) s_flt r_flt powerR
      st).rem = fun j => st.rem j - (corr / E / dt * dt) * s_flt (j - i) := by
    rw [hnew, hdecomp]
    funext j
    rw [iterPredict_add_spike n dt gaussF hgE src st.p0 i (corr / E / dt) j, ← hs]
    rw [hrem]
    ring
  by_cases hdt : dt = 0
  · rw [hnew2]
    subst hdt
    simp
  · have hc : corr / E / dt * dt = corr / E := div_mul_cancel₀ _ hdt
    rw [hnew2, hc]
    refine proj_residual_le st.rem (fun j => s_flt (j - i)) (corr / E) ?_
    have hcorr2 : corr = ∑ j, st.rem j * s_flt (j - i) := by
      rw [hcorr]
      exact fftCorrelateZ_eq_sum st.rem s_flt i
    have hE2 : (∑ j : ZMod n, s_flt (j - i) ^ 2) = E := sum_shift_sq s_flt i
    rw [hcorr2, hE2]

/-- The loop invariant of `deconv_iter` used for C3 and C7: the residual is
the filtered response minus the prediction of the spike train; once an
iteration has run, `sumsq_i` is the current normalized residual power and
equals the last recorded `rms` entry; the recorded `rms` prefix is
non-increasing. -/
def IterInv (n : ℕ) [NeZero n] (dt : ℝ) (gaussF : ZMod n → ℝ) (src : List ℝ)
    (r_flt : ZMod n → ℝ) (powerR : ℝ) (st : IterState n) : Prop :=
  st.rem = (fun j => r_flt j - iterPredict n dt gaussF src st.p0 j)
  ∧ (1 ≤ st.it → st.sumsq_i = (∑ j, st.rem j ^ 2) / powerR)
  ∧ (1 ≤ st.it → st.sumsq_i = st.rms (st.it - 1))
  ∧ (∀ k, k + 1 < st.it → st.rms (k + 1) ≤ st.rms k)

theorem iterStep_inv (n : ℕ) [NeZero n] (dt : ℝ) (gaussF : ZMod n → ℝ)
    (hgE : ∀ k, gaussF (-k) = gaussF k) (src : List ℝ)
    (s_flt r_flt : ZMod n → ℝ)
    (hs : s_flt = applyFilterZ (padZ src) (fun k => (gaussF k : ℂ)))
    (powerR : ℝ) (hpw : 0 < powerR) (st : IterState n)
    (hinv : IterInv n dt gaussF src r_flt powerR st) :
    IterInv n dt gaussF src r_flt powerR
      (iterStep n dt gaussF (dftZ (cR (padZ src))) s_flt r_flt powerR st) := by
  obtain ⟨hA, hB, hC, hD⟩ := hinv
  set st' := iterStep n dt gaussF (dftZ (cR (padZ src))) s_flt r_flt powerR st
    with hst'
  have hit : st'.it = st.it + 1 := rfl
  have hremA : st'.rem = fun j => r_flt j
      - iterPredict n dt gaussF src st'.p0 j := rfl
  have hsumsq : st'.sumsq_i = (∑ j, st'.rem j ^ 2) / powerR := rfl
  have hrms_at : st'.rms st.it = st'.sumsq_i := by
    show Function.update st.rms st.it ((∑ j, st'.rem j ^ 2) / powerR) st.it = _
    rw [Function.update_same]
    exact hsumsq.symm
  have hrms_old : ∀ k, k ≠ st.it → st'.rms k = st.rms k := by
    intro k hk
    show Function.update st.rms st.it ((∑ j, st'.rem j ^ 2) / powerR) k = _
    rw [Function.update_noteq hk]
  have hle : (∑ j, st'.rem j ^ 2) ≤ ∑ j, st.rem j ^ 2 :=
    iterStep_sq_le n dt gaussF hgE src s_flt r_flt hs powerR st hA
  refine ⟨hremA, fun _ => hsumsq, fun _ => ?_, ?_⟩
  · rw [hit]
    simp only [Nat.add_sub_cancel]
    exact hrms_at.symm
  · intro k hk
    rw [hit] at hk
    rcases Nat.lt_or_ge (k + 1) st.it with hlt | hge
    · rw [hrms_old (k + 1) (by omega), hrms_old k (by omega)]
      exact hD k hlt
    · have hkeq : k + 1 = st.it := by omega
      have hit1 : 1 ≤ st.it := by omega
      rw [hkeq, hrms_at, hrms_old k (by omega)]
      have hk1 : k = st.it - 1 := by omega
      rw [hk1, ← hC hit1, hB hit1, hsumsq]
      exact (div_le_div_iff_of_pos_right hpw).mpr hle

/-- The while loop preserves any property the step preserves. -/
theorem iterLoop_preserves (n : ℕ) [NeZero n] (dt : ℝ) (gaussF : ZMod n → ℝ)
    (sft : ZMod n → ℂ) (s_flt r_flt : ZMod n → ℝ) (powerR minderr : ℝ)
    (itmax : ℕ) (P : IterState n → Prop)
    (hstep : ∀ st, P st → P (iterStep n dt gaussF sft s_flt r_flt powerR st)) :
    ∀ (fuel : ℕ) (st : IterState n), P st →
      P (iterLoop n dt gaussF sft s_flt r_flt powerR minderr itmax fuel st) := by
  intro fuel
  induction fuel with
  | zero => intro st h; exact h
  | succ f ih =>
    intro st h
    rw [iterLoop]
    split_ifs with hcond
    · exact ih _ (hstep st h)
    · exact h

theorem iterates_it (n : ℕ) [NeZero n] (dt : ℝ) (gaussF : ZMod n → ℝ)
    (sft : ZMod n → ℂ) (s_flt r_flt : ZMod n → ℝ) (powerR : ℝ) :
    ∀ (m : ℕ) (st : IterState n),
      (iterates n dt gaussF sft s_flt r_flt powerR m st).it = st.it + m := by
  intro m
  induction m with
  | zero => intro st; rfl
  | succ m ih =>
    intro st
    rw [iterates, ih]
    show (iterStep n dt gaussF sft s_flt r_flt powerR st).it + m = st.it + (m + 1)
    rw [show (iterStep n dt gaussF sft s_flt r_flt powerR st).it = st.it + 1 from rfl]
    omega

/-- The fuel-bounded loop started with `it + fuel = itmax` runs the step
exactly until the while condition first fails, and the condition does fail
at the state it returns. -/
theorem iterLoop_characterize (n : ℕ) [NeZero n] (dt : ℝ) (gaussF : ZMod n → ℝ)
    (sft : ZMod n → ℂ) (s_flt r_flt : ZMod n → ℝ) (powerR minderr : ℝ)
    (itmax : ℕ) :
    ∀ (fuel : ℕ) (st : IterState n), st.it + fuel = itmax →
      ∃ m, m ≤ fuel
        ∧ iterLoop n dt gaussF sft s_flt r_flt powerR minderr itmax fuel st
            = iterates n dt gaussF sft s_flt r_flt powerR m st
        ∧ (∀ l, l < m → iterCond n minderr itmax
            (iterates n dt gaussF sft s_flt r_flt powerR l st))
        ∧ ¬ iterCond n minderr itmax
            (iterates n dt gaussF sft s_flt r_flt powerR m st) := by
  intro fuel
  induction fuel with
  | zero =>
    intro st hful
    refine ⟨0, le_rfl, rfl, fun l hl => absurd hl (Nat.not_lt_zero l), ?_⟩
    intro hcond
    exact absurd hcond.2 (by simp [iterates]; omega)
  | succ f ih =>
    intro st hful
    by_cases hcond : minderr < |st.d_error| ∧ st.it < itmax
    · have hstep_it : (iterStep n dt gaussF sft s_flt r_flt powerR st).it
          = st.it + 1 := rfl
      obtain ⟨m, hm, heq, hall, hstop⟩ :=
        ih (iterStep n dt gaussF sft s_flt r_flt powerR st) (by omega)
      refine ⟨m + 1, by omega, ?_, ?_, ?_⟩
      · rw [iterLoop, if_pos hcond]
        exact heq
      · intro l hl
        cases l with
        | zero => exact hcond
        | succ l0 =>
          have := hall l0 (by omega)
          rw [iterates]
          exact this
      · rw [iterates]
        exact hstop
    · refine ⟨0, by omega, ?_, fun l hl => absurd hl (Nat.not_lt_zero l), ?_⟩
      · rw [iterLoop, if_neg hcond]
        rfl
      · intro hc
        exact hcond hc

/-- `powerR = np.sum(r_flt ** 2)` of `deconv_iter` for one response
(zero when the source is empty, where the Python code fails earlier). -/
def iterPowerR (src r0 : List ℝ) (sampling_rate gauss : ℝ) : ℝ :=
  if h : src.length = 0 then 0
  else
    haveI : NeZero src.length := ⟨h⟩
    ∑ j : ZMod src.length, applyFilterZ (padZ r0)
      (fun k => (gaussFilter (1 / sampling_rate) src.length gauss
        Option.none k : ℂ)) j ^ 2

/-- State of `deconv_iter`'s loop after `m` unguarded iterations for one
response, starting from the initial state; the while loop stops at one of
these states. -/
def iterStatesAt (src r0 : List ℝ) (sampling_rate gauss : ℝ)
    (minderr : ℝ) (m : ℕ) : IterState src.length :=
  if h : src.length = 0 then
    { p0 := fun _ => 0, rem := fun _ => 0, sumsq_i := 1, d_error := 0,
      it := 0, rms := fun _ => 0 }
  else
    haveI : NeZero src.length := ⟨h⟩
    let nt := src.length
    let dt := 1 / sampling_rate
    let gaussF : ZMod nt → ℝ := gaussFilter dt nt gauss Option.none
    let r_flt := applyFilterZ (padZ r0) (fun k => (gaussF k : ℂ))
    let s_flt := applyFilterZ (padZ src) (fun k => (gaussF k : ℂ))
    let sft : ZMod nt → ℂ := dftZ (cR (padZ src))
    let powerR := ∑ j, r_flt j ^ 2
    iterates nt dt gaussF sft s_flt r_flt powerR m
      (iterInit nt r_flt powerR minderr)

theorem iterPredict_zero (n : ℕ) [NeZero n] (dt : ℝ) (gaussF : ZMod n → ℝ)
    (src : List ℝ) (j : ZMod n) :
    iterPredict n dt gaussF src (fun _ => 0) j = 0 := by
  unfold iterPredict
  have h1 : applyFilterZ (fun _ => (0 : ℝ)) (fun k => (gaussF k : ℂ))
      = fun _ => (0 : ℝ) := by
    funext m
    exact applyFilterZ_zero _ m
  rw [h1, applyFilterZ_zero, zero_mul]

theorem iterInit_inv (n : ℕ) [NeZero n] (dt : ℝ) (gaussF : ZMod n → ℝ)
    (src : List ℝ) (r_flt : ZMod n → ℝ) (powerR minderr : ℝ) :
    IterInv n dt gaussF src r_flt powerR (iterInit n r_flt powerR minderr) := by
  refine ⟨?_, ?_, ?_, ?_⟩
  · funext j
    show r_flt j = r_flt j - iterPredict n dt gaussF src (fun _ => 0) j
    rw [iterPredict_zero, sub_zero]
  · intro h
    exact absurd h (by simp [iterInit])
  · intro h
    exact absurd h (by simp [iterInit])
  · intro k hk
    exact absurd hk (by simp [iterInit])

/-- C7 core: starting from the initial state, the loop's final state
satisfies the invariant (in particular its recorded `rms` prefix is
non-increasing). -/
theorem iterLoop_run_inv (n : ℕ) [NeZero n] (dt : ℝ) (gaussF : ZMod n → ℝ)
    (hgE : ∀ k, gaussF (-k) = gaussF k) (src : List ℝ) (r_flt : ZMod n → ℝ)
    (powerR minderr : ℝ) (itmax : ℕ) (hpw : 0 < powerR) :
    IterInv n dt gaussF src r_flt powerR
      (iterLoop n dt gaussF (dftZ (cR (padZ src)))
        (applyFilterZ (padZ src) (fun k => (gaussF k : ℂ))) r_flt powerR
        minderr itmax itmax (iterInit n r_flt powerR minderr)) := by
  refine iterLoop_preserves n dt gaussF (dftZ (cR (padZ src)))
    (applyFilterZ (padZ src) (fun k => (gaussF k : ℂ))) r_flt powerR minderr
    itmax (IterInv n dt gaussF src r_flt powerR) ?_ itmax _ ?_
  · intro st hst
    exact iterStep_inv n dt gaussF hgE src _ r_flt rfl powerR hpw st hst
  · exact iterInit_inv n dt gaussF src r_flt powerR minderr

theorem iterFinalState_eq_loop (src r0 : List ℝ) (sampling_rate gauss : ℝ)
    (itmax : ℕ) (minderr : ℝ) (h : src.length ≠ 0) :
    haveI : NeZero src.length := ⟨h⟩
    iterFinalState src r0 sampling_rate gauss itmax minderr
      = iterLoop src.length (1 / sampling_rate)
          (gaussFilter (1 / sampling_rate) src.length gauss Option.none)
          (dftZ (cR (padZ src)))
          (applyFilterZ (padZ src) (fun k =>
            (gaussFilter (1 / sampling_rate) src.length gauss Option.none k : ℂ)))
          (applyFilterZ (padZ r0) (fun k =>
            (gaussFilter (1 / sampling_rate) src.length gauss Option.none k : ℂ)))
          (∑ j, applyFilterZ (padZ r0) (fun k =>
            (gaussFilter (1 / sampling_rate) src.length gauss Option.none k : ℂ))
              j ^ 2)
          minderr itmax itmax
          (iterInit src.length
            (applyFilterZ (padZ r0) (fun k =>
              (gaussFilter (1 / sampling_rate) src.length gauss
                Option.none k : ℂ)))
            (∑ j, applyFilterZ (padZ r0) (fun k =>
              (gaussFilter (1 / sampling_rate) src.length gauss
                Option.none k : ℂ)) j ^ 2)
            minderr) := by
  unfold iterFinalState
  rw [dif_neg h]

theorem iterPowerR_eq (src r0 : List ℝ) (sampling_rate gauss : ℝ)
    (h : src.length ≠ 0) :
    haveI : NeZero src.length := ⟨h⟩
    iterPowerR src r0 sampling_rate gauss
      = ∑ j, applyFilterZ (padZ r0) (fun k =>
          (gaussFilter (1 / sampling_rate) src.length gauss Option.none k : ℂ))
            j ^ 2 := by
  unfold iterPowerR
  rw [dif_neg h]

theorem iterFinalState_inv (src r0 : List ℝ) (sampling_rate gauss : ℝ)
    (itmax : ℕ) (minderr : ℝ) (h : src.length ≠ 0)
    (hpw : iterPowerR src r0 sampling_rate gauss ≠ 0) :
    haveI : NeZero src.length := ⟨h⟩
    IterInv src.length (1 / sampling_rate)
      (gaussFilter (1 / sampling_rate) src.length gauss Option.none) src
      (applyFilterZ (padZ r0) (fun k =>
        (gaussFilter (1 / sampling_rate) src.length gauss Option.none k : ℂ)))
      (iterPowerR src r0 sampling_rate gauss)
      (iterFinalState src r0 sampling_rate gauss itmax minderr) := by
  haveI : NeZero src.length := ⟨h⟩
  have hpe := iterPowerR_eq src r0 sampling_rate gauss h
  have hnn : 0 ≤ iterPowerR src r0 sampling_rate gauss := by
    rw [hpe]
    exact Finset.sum_nonneg fun j _ => sq_nonneg _
  have hpos : 0 < iterPowerR src r0 sampling_rate gauss :=
    lt_of_le_of_ne hnn (Ne.symm hpw)
  rw [iterFinalState_eq_loop src r0 sampling_rate gauss itmax minderr h, hpe]
  exact iterLoop_run_inv src.length (1 / sampling_rate)
    (gaussFilter (1 / sampling_rate) src.length gauss Option.none)
    (gaussFilter_even (1 / sampling_rate) src.length gauss Option.none)
    src _ _ minderr itmax (by rw [← hpe]; exact hpos)

/-- The `nit` array `deconv_iter` returns holds exactly the final loop
state's iteration counter for each response. -/
theorem deconv_iter_nit_eq (rsp : List (List ℝ)) (src : List ℝ)
    (sampling_rate tshift gauss : ℝ) (itmax : ℕ) (minderr : ℝ)
    (normalize : Option ℕ) (h : src.length ≠ 0) :
    (deconv_iter rsp src sampling_rate tshift gauss itmax minderr normalize).2
      = rsp.map fun r0 =>
          (iterFinalState src r0 sampling_rate gauss itmax minderr).it := by
  unfold deconv_iter iterComponent
  simp only [List.map_map]
  refine List.map_congr_left ?_
  intro r0 _
  simp only [Function.comp]
  rw [dif_neg h]

/-- The while loop of `deconv_iter` stops at the first unguarded-iteration
state at which the condition `|d_error| > minderr and it < itmax` fails;
the final iteration counter is that iteration index and never exceeds
`itmax`. -/
theorem iterFinalState_stop (src r0 : List ℝ) (sampling_rate gauss : ℝ)
    (itmax : ℕ) (minderr : ℝ) (h : src.length ≠ 0) :
    ∃ m, m ≤ itmax
      ∧ iterFinalState src r0 sampling_rate gauss itmax minderr
          = iterStatesAt src r0 sampling_rate gauss minderr m
      ∧ (iterFinalState src r0 sampling_rate gauss itmax minderr).it = m
      ∧ (∀ l, l < m → iterCond src.length minderr itmax
          (iterStatesAt src r0 sampling_rate gauss minderr l))
      ∧ ¬ iterCond src.length minderr itmax
          (iterStatesAt src r0 sampling_rate gauss minderr m) := by
  haveI : NeZero src.length := ⟨h⟩
  have hstates : ∀ m : ℕ, iterStatesAt src r0 sampling_rate gauss minderr m
      = iterates src.length (1 / sampling_rate)
          (gaussFilter (1 / sampling_rate) src.length gauss Option.none)
          (dftZ (cR (padZ src)))
          (applyFilterZ (padZ src) (fun k =>
            (gaussFilter (1 / sampling_rate) src.length gauss Option.none k : ℂ)))
          (applyFilterZ (padZ r0) (fun k =>
            (gaussFilter (1 / sampling_rate) src.length gauss Option.none k : ℂ)))
          (∑ j, applyFilterZ (padZ r0) (fun k =>
            (gaussFilter (1 / sampling_rate) src.length gauss Option.none k : ℂ))
              j ^ 2) m
          (iterInit src.length
            (applyFilterZ (padZ r0) (fun k =>
              (gaussFilter (1 / sampling_rate) src.length gauss
                Option.none k : ℂ)))
            (∑ j, applyFilterZ (padZ r0) (fun k =>
              (gaussFilter (1 / sampling_rate) src.length gauss
                Option.none k : ℂ)) j ^ 2)
            minderr) := by
    intro m
    unfold iterStatesAt
    rw [dif_neg h]
  have hinit_it : (iterInit src.length
      (applyFilterZ (padZ r0) (fun k =>
        (gaussFilter (1 / sampling_rate) src.length gauss Option.none k : ℂ)))
      (∑ j, applyFilterZ (padZ r0) (fun k =>
        (gaussFilter (1 / sampling_rate) src.length gauss Option.none k : ℂ))
          j ^ 2) minderr).it = 0 := rfl
  obtain ⟨m, hm, heq, hall, hstop⟩ := iterLoop_characterize src.length
    (1 / sampling_rate)
    (gaussFilter (1 / sampling_rate) src.length gauss Option.none)
    (dftZ (cR (padZ src))) _ _ _ minderr itmax itmax _ (by rw [hinit_it]; omega)
  refine ⟨m, hm, ?_, ?_, ?_, ?_⟩
  · rw [iterFinalState_eq_loop src r0 sampling_rate gauss itmax minderr h,
      hstates m]
    exact heq
  · rw [iterFinalState_eq_loop src r0 sampling_rate gauss itmax minderr h, heq,
      iterates_it, hinit_it]
    omega
  · intro l hl
    rw [hstates l]
    exact hall l hl
  · rw [hstates m]
    exact hstop

/-- With an all-zero (filtered) response, one step leaves the zero spike
train and zero residual unchanged: the chosen spike amplitude is zero. -/
theorem iterStep_zero_pres (n : ℕ) [NeZero n] (dt : ℝ) (gaussF : ZMod n → ℝ)
    (src : List ℝ) (s_flt : ZMod n → ℝ) (powerR : ℝ) (st : IterState n)
    (hp : st.p0 = fun _ => 0) (hr : st.rem = fun _ => 0) :
    (iterStep n dt gaussF (dftZ (cR (padZ src))) s_flt (fun _ => 0) powerR
        st).p0 = (fun _ => 0)
    ∧ (iterStep n dt gaussF (dftZ (cR (padZ src))) s_flt (fun _ => 0) powerR
        st).rem = (fun _ => 0) := by
  have hcz : ∀ i : ZMod n, fftCorrelateZ st.rem s_flt i = 0 := by
    intro i
    rw [hr]
    exact fftCorrelateZ_zero_left s_flt i
  have hinner0 : applyFilterZ (fun _ => (0 : ℝ)) (fun k => (gaussF k : ℂ))
      = fun _ => (0 : ℝ) := by
    funext m
    exact applyFilterZ_zero _ m
  have hp0 : (iterStep n dt gaussF (dftZ (cR (padZ src))) s_flt (fun _ => 0)
      powerR st).p0 = st.p0 := by
    simp only [iterStep]
    simp only [hcz, zero_div, add_zero, Function.update_eq_self]
  refine ⟨?_, ?_⟩
  · rw [hp0, hp]
  · have hrem : (iterStep n dt gaussF (dftZ (cR (padZ src))) s_flt (fun _ => 0)
        powerR st).rem = fun j => (fun _ => (0:ℝ)) j
          - iterPredict n dt gaussF src ((iterStep n dt gaussF
              (dftZ (cR (padZ src))) s_flt (fun _ => 0) powerR st).p0) j := rfl
    rw [hrem, hp0, hp]
    funext j
    rw [iterPredict_zero]
    simp

/-- For an all-zero response, the final loop state keeps the zero spike
train (so the output row is zero however many iterations run). -/
theorem iterFinalState_zero_rsp_p0 (src r0 : List ℝ)
    (sampling_rate gauss : ℝ) (itmax : ℕ) (minderr : ℝ)
    (h : src.length ≠ 0) (hz : ∀ x ∈ r0, x = 0) :
    (iterFinalState src r0 sampling_rate gauss itmax minderr).p0
      = fun _ => 0 := by
  haveI : NeZero src.length := ⟨h⟩
  have hrflt : applyFilterZ (padZ r0) (fun k =>
      (gaussFilter (1 / sampling_rate) src.length gauss Option.none k : ℂ))
      = fun _ => (0 : ℝ) := by
    funext j
    rw [padZ_zero_of_all_zero r0 hz]
    exact applyFilterZ_zero _ j
  rw [iterFinalState_eq_loop src r0 sampling_rate gauss itmax minderr h, hrflt]
  have hpres := iterLoop_preserves src.length (1 / sampling_rate)
    (gaussFilter (1 / sampling_rate) src.length gauss Option.none)
    (dftZ (cR (padZ src)))
    (applyFilterZ (padZ src) (fun k =>
      (gaussFilter (1 / sampling_rate) src.length gauss Option.none k : ℂ)))
    (fun _ => 0) (∑ j : ZMod src.length, (fun _ : ZMod src.length => (0:ℝ)) j ^ 2)
    minderr itmax
    (fun st => st.p0 = (fun _ => 0) ∧ st.rem = (fun _ => 0)) ?_ itmax
    (iterInit src.length (fun _ => 0)
      (∑ j : ZMod src.length, (fun _ : ZMod src.length => (0:ℝ)) j ^ 2) minderr)
    ⟨rfl, rfl⟩
  · exact hpres.1
  · intro st hst
    exact iterStep_zero_pres src.length (1 / sampling_rate)
      (gaussFilter (1 / sampling_rate) src.length gauss Option.none) src _ _
      st hst.1 hst.2

/-- For an all-zero response and `minderr >= 0`, the while loop of
`deconv_iter` performs no iterations at all: the initial
`d_error = 100 * powerR + minderr` equals `minderr` and the entry
condition `|d_error| > minderr` already fails. -/
theorem iterFinalState_zero_rsp_it (src r0 : List ℝ)
    (sampling_rate gauss : ℝ) (itmax : ℕ) (minderr : ℝ)
    (h : src.length ≠ 0) (hz : ∀ x ∈ r0, x = 0) (hm : 0 ≤ minderr) :
    (iterFinalState src r0 sampling_rate gauss itmax minderr).it = 0 := by
  haveI : NeZero src.length := ⟨h⟩
  have hrflt : applyFilterZ (padZ r0) (fun k =>
      (gaussFilter (1 / sampling_rate) src.length gauss Option.none k : ℂ))
      = fun _ => (0 : ℝ) := by
    funext j
    rw [padZ_zero_of_all_zero r0 hz]
    exact applyFilterZ_zero _ j
  rw [iterFinalState_eq_loop src r0 sampling_rate gauss itmax minderr h, hrflt]
  have hpz : (∑ j : ZMod src.length, (fun _ : ZMod src.length => (0:ℝ)) j ^ 2)
      = 0 := by
    simp
  rw [hpz]
  have hde : (iterInit src.length (fun _ : ZMod src.length => (0:ℝ)) 0
      minderr).d_error = minderr := by
    show 100 * 0 + minderr = minderr
    ring
  cases itmax with
  | zero => rfl
  | succ f =>
    rw [iterLoop]
    rw [if_neg ?_]
    · rfl
    · intro hcond
      rw [hde] at hcond
      rw [abs_of_nonneg hm] at hcond
      exact lt_irrefl minderr hcond.1

/-- With an all-zero response, `iterComponent` returns an all-zero row. -/
theorem iterComponent_zero_row (src r0 : List ℝ)
    (sampling_rate tshift gauss : ℝ) (itmax : ℕ) (minderr : ℝ)
    (h : src.length ≠ 0) (hz : ∀ x ∈ r0, x = 0) :
    ∀ v ∈ (iterComponent src r0 sampling_rate tshift gauss itmax minderr).1,
      v = 0 := by
  intro v hv
  unfold iterComponent at hv
  rw [dif_neg h] at hv
  simp only at hv
  haveI : NeZero src.length := ⟨h⟩
  rw [iterFinalState_zero_rsp_p0 src r0 sampling_rate gauss itmax minderr h hz]
    at hv
  have hinner0 : applyFilterZ (fun _ : ZMod src.length => (0 : ℝ))
      (fun k => (gaussFilter (1 / sampling_rate) src.length gauss
        Option.none k : ℂ)) = fun _ => (0 : ℝ) := by
    funext m
    exact applyFilterZ_zero _ m
  rw [hinner0] at hv
  rcases (List.mem_ofFn _ _).mp hv with ⟨i, hi⟩
  rw [← hi]
  exact applyFilterZ_zero _ _

/-! ## `deconv_multi`: multitaper deconvolution -/

/-- `scipy.signal.detrend(x, type='constant')`: subtract the mean
(modelled from the scipy documentation). -/
def detrendConst (x : List ℝ) : List ℝ :=
  x.map fun v => v - x.sum / x.length

/-- `scipy.signal.detrend(x, type='linear')`: subtract the least-squares
straight-line fit over the sample indices (modelled from the scipy
documentation, written with the closed-form normal-equation solution;
Lean's total division yields slope 0 for degenerate fits). -/
def detrendLin (x : List ℝ) : List ℝ :=
  let n : ℝ := x.length
  let sx : ℝ := ∑ i ∈ Finset.range x.length, (i : ℝ)
  let sy : ℝ := x.sum
  let sxx : ℝ := ∑ i ∈ Finset.range x.length, (i : ℝ) ^ 2
  let sxy : ℝ := ∑ i ∈ Finset.range x.length, (i : ℝ) * x.getD i 0
  let slope := (n * sxy - sx * sy) / (n * sxx - sx ^ 2)
  let intercept := (sy - slope * sx) / n
  List.ofFn fun i : Fin x.length => x.getD i.val 0 - (intercept + slope * i.val)

theorem detrendConst_length (x : List ℝ) :
    (detrendConst x).length = x.length := by
  unfold detrendConst
  rw [List.length_map]

theorem detrendLin_length (x : List ℝ) :
    (detrendLin x).length = x.length := by
  unfold detrendLin
  rw [List.length_ofFn]

theorem sum_zero_of_all_zero (x : List ℝ) (hz : ∀ v ∈ x, v = 0) :
    x.sum = 0 := by
  induction x with
  | nil => rfl
  | cons y ys ih =>
    rw [List.sum_cons, hz y (List.mem_cons_self y ys),
      ih (fun v hv => hz v (List.mem_cons_of_mem y hv)), add_zero]

theorem detrendConst_zero (x : List ℝ) (hz : ∀ v ∈ x, v = 0) :
    ∀ v ∈ detrendConst x, v = 0 := by
  intro v hv
  unfold detrendConst at hv
  rcases List.mem_map.mp hv with ⟨w, hw, hval⟩
  rw [← hval, hz w hw, sum_zero_of_all_zero x hz]
  simp

theorem detrendLin_zero (x : List ℝ) (hz : ∀ v ∈ x, v = 0) :
    ∀ v ∈ detrendLin x, v = 0 := by
  intro v hv
  unfold detrendLin at hv
  simp only at hv
  rcases (List.mem_ofFn _ _).mp hv with ⟨i, hi⟩
  rw [← hi]
  have hsum : x.sum = 0 := sum_zero_of_all_zero x hz
  have hxy : (∑ m ∈ Finset.range x.length, (m : ℝ) * x.getD m 0) = 0 := by
    refine Finset.sum_eq_zero fun m _ => ?_
    rw [getD_zero_of_all_zero x hz m, mul_zero]
  have hget : x.getD i.val 0 = 0 := getD_zero_of_all_zero x hz i.val
  simp only
  rw [hget, hxy, hsum]
  simp

/-- The body of `deconv_multi` after the asserts (`rf/deconvolve.py` lines
569–683).  `tapT` and `el` are the transposed taper matrix and the
eigenvalues produced by `mtspec.multitaper.dpss(ntap, tband, K)` — an
external library with no source here, so they enter as arguments; the sign
flips on taper rows 1 and 2 follow the code.  All divisions are Lean's
total division: the Python code instead raises `ZeroDivisionError` when a
window count `nwin` is zero and broadcasting errors when trace lengths
disagree with `len(rsp[0])`. -/
def deconvMultiRowOf (rsp : List (List ℝ)) (src : List ℝ)
    (sampling_rate tshift : ℝ) (K : ℕ) (T olap glp : ℝ)
    (tapT : List (List ℝ)) (el : List ℝ) (dat nos : List ℝ) : List ℝ :=
  let nft := (rsp.headD []).length
  if hn : nft = 0 then []
  else
    haveI : NeZero nft := ⟨hn⟩
    let dt := 1 / sampling_rate
    let freq : ZMod nft → ℝ := fftfreq nft dt
    let ntap : ℕ := (round (T / dt)).toNat
    let tap : ℕ → ℕ → ℝ := fun k i =>
      (if k = 1 ∧ 2 ≤ K then -1 else if k = 2 ∧ 3 ≤ K then -1 else 1)
        * (tapT.getD k []).getD i 0
    let ofac := 1 / (1 - olap)
    let src1 := detrendLin (detrendConst src)
    let nwav := src1.length
    let nwin : ℕ := (Int.floor (ofac * nwav / ntap)).toNat
    let sfft : ℕ → ZMod nft → ℂ := fun k f =>
      ∑ j ∈ Finset.range nwin,
        dftZ (cR fun m : ZMod nft =>
          if (Int.floor ((j : ℝ) * ntap / ofac)).toNat ≤ m.val
              ∧ m.val < (Int.floor ((j : ℝ) * ntap / ofac)).toNat + ntap then
            tap k (m.val - (Int.floor ((j : ℝ) * ntap / ofac)).toNat)
              * src1.getD m.val 0
          else 0) f
    let fac : ℝ := nwav / ((nwin : ℝ) * nft)
    let sfftS : ℕ → ZMod nft → ℂ := fun k f => (fac : ℂ) * sfft k f
    let nos1 := detrendLin (detrendConst nos)
    let nwin_n : ℕ := (Int.floor (ofac * nos1.length / ntap)).toNat
    let nfftA : ℕ → ZMod nft → ℂ := fun k f =>
      ∑ j ∈ Finset.range nwin_n,
        if (Int.floor ((j : ℝ) * ntap / ofac)).toNat + ntap < nft then
          dftZ (cR fun m : ZMod nft =>
            if (Int.floor ((j : ℝ) * ntap / ofac)).toNat ≤ m.val
                ∧ m.val < (Int.floor ((j : ℝ) * ntap / ofac)).toNat + ntap then
              tap k (m.val - (Int.floor ((j : ℝ) * ntap / ofac)).toNat)
                * nos1.getD m.val 0
            else 0) f
        else 0
    let facN : ℝ := nwav / ((nwin_n : ℝ) * nft)
    let s0 : ZMod nft → ℝ := fun f =>
      ∑ k ∈ Finset.range K,
        (((facN : ℂ) * nfftA k f).re ^ 2 + ((facN : ℂ) * nfftA k f).im ^ 2)
          / el.getD k 0
    let dat1 := detrendLin (detrendConst dat)
    let nwin_r : ℕ := (Int.floor (ofac * nft / ntap)).toNat - 1
    let dfftA : ℕ → ZMod nft → ℂ := fun k f =>
      ∑ j ∈ Finset.range nwin_r,
        if (Int.floor ((j : ℝ) * ntap / ofac)).toNat + ntap < nft then
          dftZ (cR fun m : ZMod nft =>
            if (Int.floor ((j : ℝ) * ntap / ofac)).toNat ≤ m.val
                ∧ m.val < (Int.floor ((j : ℝ) * ntap / ofac)).toNat + ntap then
              tap k (m.val - (Int.floor ((j : ℝ) * ntap / ofac)).toNat)
                * dat1.getD m.val 0
            else 0) f
        else 0
    let facR : ℝ := (nft : ℝ) / ((nwin_r : ℝ) * nft)
    let num : ZMod nft → ℂ := fun f =>
      ∑ k ∈ Finset.range K, sfftS k f * conj ((facR : ℂ) * dfftA k f)
    let denom : ZMod nft → ℂ := fun f =>
      ∑ k ∈ Finset.range K, sfftS k f * conj (sfftS k f)
    let recF : ZMod nft → ℂ := fun f =>
      num f / (denom f + (s0 f : ℂ))
        * Complex.exp (-Complex.I * freq f * (2 * Real.pi) * (tshift - dt))
        * (Real.exp (-(freq f / 2 * glp) ^ 2) : ℂ)
    (List.ofFn fun i : Fin nft => (idftZ recF ((i : ℕ) : ZMod nft)).re).reverse

/-- Row `c` of `deconv_multi`: the response `rsp[c]` with its noise
`nse[c]` (a missing noise trace is an IndexError in Python; `getD` makes
the lookup total here). -/
def deconvMultiRow (rsp : List (List ℝ)) (src : List ℝ) (nse : List (List ℝ))
    (sampling_rate tshift : ℝ) (K : ℕ) (T olap glp : ℝ)
    (tapT : List (List ℝ)) (el : List ℝ) (c : ℕ) : List ℝ :=
  deconvMultiRowOf rsp src sampling_rate tshift K T olap glp tapT el
    (rsp.getD c []) (nse.getD c [])

/-- The body of `deconv_multi` after the asserts (`rf/deconvolve.py` lines
569–683): one `deconvMultiRow` per response, then the normalization
epilogue. -/
def deconvMultiCore (rsp : List (List ℝ)) (src : List ℝ) (nse : List (List ℝ))
    (sampling_rate tshift : ℝ) (K : ℕ) (T olap glp : ℝ)
    (normalize : Option ℕ) (tapT : List (List ℝ)) (el : List ℝ) :
    List (List ℝ) :=
  normScaleR normalize ((List.range rsp.length).map
    (deconvMultiRow rsp src nse sampling_rate tshift K T olap glp tapT el))

/-- The assert stage of `deconv_multi` (`rf/deconvolve.py` lines 566–567)
as Python executes it: `rsp[0]` (respectively `nse[0]`) on an empty list
raises IndexError before any comparison is made, and a failing `assert`
raises AssertionError with the documented message.  Both checks inspect
only the first response and the first noise trace. -/
def deconvMultiAsserts (rsp : List (List ℝ)) (src : List ℝ)
    (nse : List (List ℝ)) : Except String Unit :=
  match rsp with
  | [] => Except.error "IndexError: list index out of range"
  | rsp0 :: _ =>
    if ¬ (src.length < rsp0.length) then
      Except.error "AssertionError: source wavelet must be shorter than response"
    else
      match nse with
      | [] => Except.error "IndexError: list index out of range"
      | nse0 :: _ =>
        if ¬ (nse0.length ≤ rsp0.length) then
          Except.error "AssertionError: noise should not be longer than response"
        else Except.ok ()

/-- `deconv_multi` from `rf/deconvolve.py`: the assert stage (IndexError
on an empty response or noise list, the documented AssertionError on a
failing length check), then the numeric body. -/
def deconv_multi (rsp : List (List ℝ)) (src : List ℝ) (nse : List (List ℝ))
    (sampling_rate tshift : ℝ) (K : ℕ) (tband T olap glp : ℝ)
    (normalize : Option ℕ) (tapT : List (List ℝ)) (el : List ℝ) :
    Except String (List (List ℝ)) :=
  match deconvMultiAsserts rsp src nse with
  | Except.error e => Except.error e
  | Except.ok _ =>
    Except.ok (deconvMultiCore rsp src nse sampling_rate tshift K T olap glp
      normalize tapT el)

theorem dftZ_cR_zero {n : ℕ} [NeZero n] (k : ZMod n) :
    dftZ (cR fun _ => (0 : ℝ)) k = 0 := by
  unfold dftZ cR
  simp

theorem deconvMultiRowOf_length (rsp : List (List ℝ)) (src : List ℝ)
    (sampling_rate tshift : ℝ) (K : ℕ) (T olap glp : ℝ)
    (tapT : List (List ℝ)) (el : List ℝ) (dat nos : List ℝ) :
    (deconvMultiRowOf rsp src sampling_rate tshift K T olap glp tapT el
      dat nos).length = (rsp.headD []).length := by
  simp only [deconvMultiRowOf]
  split_ifs with hn
  · rw [hn]
    rfl
  · rw [List.length_reverse, List.length_ofFn]

/-- An all-zero response yields an all-zero `deconv_multi` row before
normalization, whatever the tapers, noise and source are. -/
theorem deconvMultiRowOf_zero (rsp : List (List ℝ)) (src : List ℝ)
    (sampling_rate tshift : ℝ) (K : ℕ) (T olap glp : ℝ)
    (tapT : List (List ℝ)) (el : List ℝ) (dat nos : List ℝ)
    (hz : ∀ x ∈ dat, x = 0) :
    ∀ v ∈ deconvMultiRowOf rsp src sampling_rate tshift K T olap glp tapT el
      dat nos, v = 0 := by
  intro v hv
  simp only [deconvMultiRowOf] at hv
  by_cases hn : (rsp.headD []).length = 0
  · rw [dif_pos hn] at hv
    simp at hv
  · rw [dif_neg hn] at hv
    haveI : NeZero (rsp.headD []).length := ⟨hn⟩
    have hdat1 : ∀ x ∈ detrendLin (detrendConst dat), x = 0 :=
      detrendLin_zero _ (detrendConst_zero _ hz)
    have hgetD : ∀ m : ℕ, (detrendLin (detrendConst dat)).getD m 0 = 0 :=
      getD_zero_of_all_zero _ hdat1
    simp only [hgetD, mul_zero, ite_self, dftZ_cR_zero,
      Finset.sum_const_zero, map_zero, zero_div, zero_mul, mul_zero,
      idftZ_zero_fun, Complex.zero_re, List.mem_reverse] at hv
    rcases (List.mem_ofFn _ _).mp hv with ⟨i, hi⟩
    exact hi.symm

/-! ## Analysis of `__find_nearest` on the sample-time grid -/

/-- Counting the elements of `range n` below a cap `c` gives `min n c`. -/
theorem countP_range_lt (n c : ℕ) :
    (List.range n).countP (fun m => decide (m < c)) = min n c := by
  induction n with
  | zero => simp
  | succ k ih =>
      rw [List.range_succ, List.countP_append, ih]
      have hk : List.countP (fun m => decide (m < c)) [k]
          = if k < c then 1 else 0 := by
        simp [List.countP_cons]
      rw [hk]
      by_cases h : k < c
      · rw [if_pos h]; omega
      · rw [if_neg h]; omega

/-- `np.searchsorted` on the sample-time grid `0, δ, 2δ, …, (n-1)δ` of a
trace returns `min n ⌈v/δ⌉₊`. -/
theorem searchsorted_grid (n : ℕ) (δ v : ℝ) (hδ : 0 < δ) :
    searchsortedLeft (List.ofFn fun i : Fin n => (i : ℝ) * δ) v
      = min n (Nat.ceil (v / δ)) := by
  unfold searchsortedLeft
  rw [List.ofFn_eq_map, List.countP_map]
  have hcongr : ∀ i ∈ List.finRange n,
      ((fun t => decide (t < v)) ∘ fun i : Fin n => (i : ℝ) * δ) i
        ↔ (fun i : Fin n => decide ((i : ℕ) < Nat.ceil (v / δ))) i := by
    intro i _
    simp only [Function.comp, decide_eq_true_eq]
    rw [Nat.lt_ceil, lt_div_iff₀ hδ]
  rw [List.countP_congr hcongr]
  have hmap : (List.finRange n).countP
        (fun i : Fin n => decide ((i : ℕ) < Nat.ceil (v / δ)))
      = (List.range n).countP (fun m => decide (m < Nat.ceil (v / δ))) := by
    rw [← List.map_coe_finRange, List.countP_map]
    rfl
  rw [hmap, countP_range_lt]

/-- Entry `j` of the sample-time grid. -/
theorem grid_getD (n j : ℕ) (δ : ℝ) (hj : j < n) :
    (List.ofFn fun i : Fin n => (i : ℝ) * δ).getD j 0 = (j : ℝ) * δ := by
  have hj2 : j < (List.ofFn fun i : Fin n => (i : ℝ) * δ).length := by
    rw [List.length_ofFn]; exact hj
  rw [List.getD_eq_getElem _ 0 hj2, List.getElem_ofFn]

/-- `i` is the index of a sample time `i·δ` nearest to `v` among
`0, δ, …, (n-1)·δ`, ties resolved to the later sample. -/
def nearestLate (n : ℕ) (δ v : ℝ) (i : ℕ) : Prop :=
  i < n ∧ ∀ j < n, |v - (i : ℝ) * δ| < |v - (j : ℝ) * δ| ∨
    (|v - (i : ℝ) * δ| = |v - (j : ℝ) * δ| ∧ j ≤ i)

/-- When the sought value lies beyond the last sample time, `__find_nearest`
evaluates `array[idx]` with `idx = len(array)` and raises `IndexError`. -/
theorem findNearest_grid_none (n : ℕ) (δ v : ℝ) (hδ : 0 < δ) (hn : 1 ≤ n)
    (hv : ((n - 1 : ℕ) : ℝ) * δ < v) :
    findNearest (List.ofFn fun i : Fin n => (i : ℝ) * δ) v = Option.none := by
  have hceil : n ≤ Nat.ceil (v / δ) := by
    have h1 : ((n - 1 : ℕ) : ℝ) < v / δ := (lt_div_iff₀ hδ).mpr hv
    have h2 : n - 1 < Nat.ceil (v / δ) := Nat.lt_ceil.mpr h1
    omega
  have hidx : searchsortedLeft (List.ofFn fun i : Fin n => (i : ℝ) * δ) v
      = n := by
    rw [searchsorted_grid n δ v hδ]
    omega
  simp only [findNearest, hidx, List.length_ofFn]
  simp

/-- When the sought value is at most the last sample time, `__find_nearest`
returns the index of the nearest sample time, ties going to the later
sample. -/
theorem findNearest_grid_some (n : ℕ) (δ v : ℝ) (hδ : 0 < δ) (hn : 1 ≤ n)
    (hv : v ≤ ((n - 1 : ℕ) : ℝ) * δ) :
    ∃ i, findNearest (List.ofFn fun k : Fin n => (k : ℝ) * δ) v
        = Option.some i ∧ nearestLate n δ v i := by
  set c := Nat.ceil (v / δ) with hc
  have hcle : c ≤ n - 1 := by
    rw [hc]
    exact Nat.ceil_le.mpr ((div_le_iff₀ hδ).mpr hv)
  have hcn : c < n := by omega
  have hidx : searchsortedLeft (List.ofFn fun k : Fin n => (k : ℝ) * δ) v
      = c := by
    rw [searchsorted_grid n δ v hδ, ← hc]
    omega
  have hvc : v ≤ (c : ℝ) * δ := by
    have h1 : v / δ ≤ (c : ℝ) := Nat.ceil_le.mp (le_refl c)
    exact (div_le_iff₀ hδ).mp h1
  rcases Nat.eq_zero_or_pos c with hc0 | hc1
  · -- `idx = 0`: the guard `idx > 0` fails and index 0 is returned.
    have hv0 : v ≤ 0 := by
      have h := hvc
      rw [hc0] at h
      simpa using h
    refine ⟨0, ?_, ?_⟩
    · simp only [findNearest, hidx, hc0, List.length_ofFn]
      have hne : ¬ (0 = n) := by omega
      rw [if_neg hne]
      split_ifs
      · rfl
      · rfl
    · refine ⟨by omega, ?_⟩
      intro j hj
      simp only [Nat.cast_zero, zero_mul, sub_zero]
      rcases Nat.eq_zero_or_pos j with hj0 | hj1
      · right
        rw [hj0]
        simp
      · left
        have h1j : (1 : ℝ) ≤ (j : ℝ) := by exact_mod_cast hj1
        have hjδ : 1 * δ ≤ (j : ℝ) * δ :=
          mul_le_mul_of_nonneg_right h1j hδ.le
        rw [one_mul] at hjδ
        rw [abs_of_nonpos hv0, abs_of_nonpos (by linarith)]
        linarith
  · -- `idx = c ≥ 1`: compare the two neighbouring sample times.
    have hprev : ((c - 1 : ℕ) : ℝ) * δ < v := by
      have h2 : ((c - 1 : ℕ) : ℝ) < v / δ := Nat.lt_ceil.mp (by omega)
      exact (lt_div_iff₀ hδ).mp h2
    have hpy : pyGet (List.ofFn fun k : Fin n => (k : ℝ) * δ) ((c : ℤ) - 1)
        = ((c - 1 : ℕ) : ℝ) * δ := by
      unfold pyGet
      have hneg : ¬ ((c : ℤ) - 1 < 0) := by omega
      rw [if_neg hneg]
      have htn : ((c : ℤ) - 1).toNat = c - 1 := by omega
      rw [htn]
      exact grid_getD n (c - 1) δ (by omega)
    have hcur : (List.ofFn fun k : Fin n => (k : ℝ) * δ).getD c 0
        = (c : ℝ) * δ := grid_getD n c δ hcn
    have hlen : (List.ofFn fun k : Fin n => (k : ℝ) * δ).length = n :=
      List.length_ofFn _
    -- distances to the two neighbours
    have hA : |v - ((c - 1 : ℕ) : ℝ) * δ| = v - ((c - 1 : ℕ) : ℝ) * δ :=
      abs_of_pos (by linarith)
    have hB : |v - (c : ℝ) * δ| = (c : ℝ) * δ - v := by
      rw [abs_of_nonpos (by linarith)]
      ring
    by_cases hexpr : v - ((c - 1 : ℕ) : ℝ) * δ < (c : ℝ) * δ - v
    · -- strictly nearer to the previous sample: index `c - 1` is returned
      refine ⟨c - 1, ?_, ?_⟩
      · simp only [findNearest, hidx, hlen]
        have hne : ¬ (c = n) := by omega
        rw [if_neg hne]
        have hcond : c > 0 ∧ (c = n ∨
            |v - pyGet (List.ofFn fun k : Fin n => (k : ℝ) * δ)
              ((c : ℤ) - 1)|
              < |v - (List.ofFn fun k : Fin n => (k : ℝ) * δ).getD c 0|) := by
          refine ⟨hc1, Or.inr ?_⟩
          rw [hpy, hcur, hA, hB]
          exact hexpr
        rw [if_pos hcond]
      · refine ⟨by omega, ?_⟩
        intro j hj
        rw [hA]
        rcases le_or_lt j (c - 1) with hjc | hjc
        · have hjr : (j : ℝ) ≤ ((c - 1 : ℕ) : ℝ) := by exact_mod_cast hjc
          have hmul : (j : ℝ) * δ ≤ ((c - 1 : ℕ) : ℝ) * δ :=
            mul_le_mul_of_nonneg_right hjr hδ.le
          have hdist : |v - (j : ℝ) * δ| = v - (j : ℝ) * δ :=
            abs_of_pos (by linarith)
          rcases Nat.lt_or_ge j (c - 1) with hjlt | hjge
          · left
            have hjr2 : (j : ℝ) + 1 ≤ ((c - 1 : ℕ) : ℝ) := by
              exact_mod_cast hjlt
            have hmul2 : ((j : ℝ) + 1) * δ ≤ ((c - 1 : ℕ) : ℝ) * δ :=
              mul_le_mul_of_nonneg_right hjr2 hδ.le
            rw [hdist]
            nlinarith
          · right
            have hje : j = c - 1 := by omega
            rw [hje]
            exact ⟨hA.symm, le_refl _⟩
        · left
          have hjn : c ≤ j := by omega
          have hjr : (c : ℝ) ≤ (j : ℝ) := by exact_mod_cast hjn
          have hmul : (c : ℝ) * δ ≤ (j : ℝ) * δ :=
            mul_le_mul_of_nonneg_right hjr hδ.le
          have hdist : |v - (j : ℝ) * δ| = (j : ℝ) * δ - v := by
            rw [abs_of_nonpos (by linarith)]
            ring
          rw [hdist]
          linarith
    · -- ties or nearer to the current sample: index `c` is returned
      refine ⟨c, ?_, ?_⟩
      · simp only [findNearest, hidx, hlen]
        have hne : ¬ (c = n) := by omega
        rw [if_neg hne]
        have hcond : ¬ (c > 0 ∧ (c = n ∨
            |v - pyGet (List.ofFn fun k : Fin n => (k : ℝ) * δ)
              ((c : ℤ) - 1)|
              < |v - (List.ofFn fun k : Fin n => (k : ℝ) * δ).getD c 0|)) := by
          intro h
          rcases h.2 with h2 | h2
          · omega
          · rw [hpy, hcur, hA, hB] at h2
            exact hexpr h2
        rw [if_neg hcond]
      · refine ⟨hcn, ?_⟩
        intro j hj
        rw [hB]
        have hBA : (c : ℝ) * δ - v ≤ v - ((c - 1 : ℕ) : ℝ) * δ :=
          not_lt.mp hexpr
        rcases le_or_lt (c : ℕ) j with hjc | hjc
        · have hjr : (c : ℝ) ≤ (j : ℝ) := by exact_mod_cast hjc
          have hmul : (c : ℝ) * δ ≤ (j : ℝ) * δ :=
            mul_le_mul_of_nonneg_right hjr hδ.le
          have hdist : |v - (j : ℝ) * δ| = (j : ℝ) * δ - v := by
            rw [abs_of_nonpos (by linarith)]
            ring
          rcases Nat.lt_or_ge c j with hjlt | hjge
          · left
            have hjr2 : (c : ℝ) + 1 ≤ (j : ℝ) := by exact_mod_cast hjlt
            have hmul2 : ((c : ℝ) + 1) * δ ≤ (j : ℝ) * δ :=
              mul_le_mul_of_nonneg_right hjr2 hδ.le
            rw [hdist]
            nlinarith
          · right
            have hje : j = c := by omega
            rw [hje]
            exact ⟨hB.symm, le_refl _⟩
        · have hjn : j ≤ c - 1 := by omega
          have hjr : (j : ℝ) ≤ ((c - 1 : ℕ) : ℝ) := by exact_mod_cast hjn
          have hmul : (j : ℝ) * δ ≤ ((c - 1 : ℕ) : ℝ) * δ :=
            mul_le_mul_of_nonneg_right hjr hδ.le
          have hdist : |v - (j : ℝ) * δ| = v - (j : ℝ) * δ :=
            abs_of_pos (by linarith)
          rw [hdist]
          have hle : (c : ℝ) * δ - v ≤ v - (j : ℝ) * δ := by linarith
          rcases lt_or_eq_of_le hle with hlt | heq
          · exact Or.inl hlt
          · exact Or.inr ⟨heq, by omega⟩

/-! ## Further facts about the normalization epilogue -/

/-- `normScaleR` keeps the number of rows. -/
theorem normScaleR_length (nrm : Option ℕ) (rows : List (List ℝ)) :
    (normScaleR nrm rows).length = rows.length := by
  cases nrm with
  | none => rfl
  | some i => exact List.length_map _ _

/-- `normScaleR` keeps every row's length. -/
theorem normScaleR_row_length (nrm : Option ℕ) (rows : List (List ℝ))
    (k : ℕ) :
    ((normScaleR nrm rows).getD k []).length = (rows.getD k []).length := by
  cases nrm with
  | none => rfl
  | some i =>
      by_cases hk : k < rows.length
      · simp only [normScaleR]
        rw [getD_map_lt _ rows k [] [] hk, List.length_map]
      · have hk2 : rows.length ≤ k := by omega
        have h1 : rows.getD k ([] : List ℝ) = [] := List.getD_eq_default _ _ hk2
        have h2 : (normScaleR (Option.some i) rows).getD k [] = [] := by
          refine List.getD_eq_default _ _ ?_
          simp only [normScaleR, List.length_map]
          exact hk2
        rw [h1, h2]

/-- Every row of `normScaleR` has the length of one of the input rows. -/
theorem normScaleR_mem_length (nrm : Option ℕ) (rows : List (List ℝ)) :
    ∀ row ∈ normScaleR nrm rows, ∃ r ∈ rows, row.length = r.length := by
  intro row hrow
  cases nrm with
  | none => exact ⟨row, hrow, rfl⟩
  | some i =>
      rcases List.mem_map.mp hrow with ⟨r, hr, hmap⟩
      exact ⟨r, hr, by rw [← hmap, List.length_map]⟩

/-- `normScaleR` maps an all-zero row to an all-zero row (`0 * norm = 0`). -/
theorem normScaleR_row_zero (nrm : Option ℕ) (rows : List (List ℝ)) (k : ℕ)
    (hz : ∀ x ∈ rows.getD k [], x = 0) :
    ∀ x ∈ (normScaleR nrm rows).getD k [], x = 0 := by
  cases nrm with
  | none => exact hz
  | some i =>
      by_cases hk : k < rows.length
      · simp only [normScaleR]
        rw [getD_map_lt _ rows k [] [] hk]
        intro x hx
        rcases List.mem_map.mp hx with ⟨y, hy, hxy⟩
        rw [← hxy, hz y hy, mul_zero]
      · have hk2 : rows.length ≤ k := by omega
        have h2 : (normScaleR (Option.some i) rows).getD k [] = [] := by
          refine List.getD_eq_default _ _ ?_
          simp only [normScaleR, List.length_map]
          exact hk2
        rw [h2]
        intro x hx
        exact absurd hx (List.not_mem_nil x)

/-- `iterComponent` always outputs `len(src)` samples (the all-response
data is padded or truncated to the source length). -/
theorem iterComponent_length (src r0 : List ℝ)
    (sampling_rate tshift gauss : ℝ) (itmax : ℕ) (minderr : ℝ) :
    (iterComponent src r0 sampling_rate tshift gauss itmax minderr).1.length
      = src.length := by
  unfold iterComponent
  by_cases h : src.length = 0
  · rw [dif_pos h, h]
    rfl
  · rw [dif_neg h]
    haveI : NeZero src.length := ⟨h⟩
    simp only [List.length_ofFn]

/-- The `m`-th unguarded loop state has iteration counter `m`. -/
theorem iterStatesAt_it (src r0 : List ℝ) (sampling_rate gauss minderr : ℝ)
    (m : ℕ) (h : src.length ≠ 0) :
    (iterStatesAt src r0 sampling_rate gauss minderr m).it = m := by
  unfold iterStatesAt
  rw [dif_neg h]
  haveI : NeZero src.length := ⟨h⟩
  rw [iterates_it]
  exact Nat.zero_add m

/-! ## The claims -/

/-- C10: in the onset-snapping step of `deconvolve`, `__find_nearest`
evaluates `array[idx]` before checking `idx == len(array)`, so whenever the
stream's onset is later than the last sample time of the source trace the
call raises IndexError; when the onset is at most the last sample time, it
returns the index of the sample time nearest to the onset (ties resolved to
the later sample) and the onset of the source and of every response trace
is set to that sample's time. -/
theorem claim_C10_onset_snapping (npts : ℕ) (delta starttime onset : ℝ)
    (rspOnsets : List ℝ) (hδ : 0 < delta) (hn : 1 ≤ npts) :
    (((npts - 1 : ℕ) : ℝ) * delta < onset - starttime →
      snapOnsets npts delta starttime onset rspOnsets
        = Except.error "IndexError") ∧
    (onset - starttime ≤ ((npts - 1 : ℕ) : ℝ) * delta →
      ∃ i, nearestLate npts delta (onset - starttime) i ∧
        snapOnsets npts delta starttime onset rspOnsets
          = Except.ok (starttime + (i : ℝ) * delta,
              rspOnsets.map fun _ => starttime + (i : ℝ) * delta)) := by
  constructor
  · intro hv
    simp only [snapOnsets]
    rw [findNearest_grid_none npts delta (onset - starttime) hδ hn hv]
  · intro hv
    obtain ⟨i, hfind, hnear⟩ :=
      findNearest_grid_some npts delta (onset - starttime) hδ hn hv
    refine ⟨i, hnear, ?_⟩
    simp only [snapOnsets]
    rw [hfind]

theorem claim_C10_onset_snapping_witness :
    (0 : ℝ) < 1 ∧ (1 : ℕ) ≤ 2 ∧
      snapOnsets 2 1 0 1 [7] ≠ Except.error "IndexError" := by
  refine ⟨one_pos, by omega, ?_⟩
  obtain ⟨i, -, heq⟩ :=
    (claim_C10_onset_snapping 2 1 0 1 [7] one_pos (by omega)).2 (by norm_num)
  intro hcon
  rw [heq] at hcon
  exact Except.noConfusion hcon

/-- C9: calling `deconvf` with a single bare array and `normalize=None`
reaches `return rf` with the loop variable `rf` unbound (a NameError); the
same call with an integer `normalize` returns a single array rather than a
list. -/
theorem claim_C9_bare_array_paths (a src : List ℝ)
    (sampling_rate waterlevel gauss tshift : ℝ) (lengthOpt nfftOpt : Option ℕ)
    (i : ℕ)
    (h : nfftOpt.getD (nextFastLen (lengthOpt.getD a.length)) ≠ 0) :
    deconvf (RspList.single a) src sampling_rate waterlevel gauss tshift
        lengthOpt nfftOpt NormMode.null
      = Except.error "NameError: name rf is not defined" ∧
    ∃ out : List ℂ,
      deconvf (RspList.single a) src sampling_rate waterlevel gauss tshift
          lengthOpt nfftOpt (NormMode.idx i)
        = Except.ok (RfOut.single out) := by
  constructor
  · simp only [deconvf, getLength]
    rw [dif_neg h]
  · simp only [deconvf, getLength]
    rw [dif_neg h]
    exact ⟨_, rfl⟩

theorem claim_C9_bare_array_paths_witness :
    ((Option.none : Option ℕ).getD
        (nextFastLen ((Option.none : Option ℕ).getD ([1, 0] : List ℝ).length))
      ≠ 0) ∧
    (deconvf (RspList.single [1, 0]) [1, 0] 1 (1 / 20) 10 0 Option.none
        Option.none NormMode.null
      = Except.error "NameError: name rf is not defined" ∧
    ∃ out : List ℂ,
      deconvf (RspList.single [1, 0]) [1, 0] 1 (1 / 20) 10 0 Option.none
          Option.none (NormMode.idx 0)
        = Except.ok (RfOut.single out)) :=
  ⟨nextFastLen_ne_zero _,
    claim_C9_bare_array_paths [1, 0] [1, 0] 1 (1 / 20) 10 0 Option.none
      Option.none 0 (nextFastLen_ne_zero _)⟩

/-- C6: `_acorrt` and `_xcorrt` return exactly `num` samples whenever
`num ≥ 1`, so the correlation-length equality checked by the `assert`
inside `deconvt` holds on every execution with a positive output length. -/
theorem claim_C6_correlation_lengths (a b : List ℝ) (num : ℕ) (shift : ℤ)
    (h : 1 ≤ num) (rsp_list : List (List ℝ)) (src : List ℝ) (spiking : ℝ)
    (lengthOpt : Option ℕ)
    (hlen : 1 ≤ lengthOpt.getD (rsp_list.headD []).length) :
    (acorrt a num).length = num ∧ (xcorrt b a num shift).length = num ∧
      deconvtAssertOk rsp_list src shift spiking lengthOpt := by
  refine ⟨acorrt_length a num h, xcorrt_length b a num shift h, ?_⟩
  intro rsp _
  rw [xcorrt_length _ _ _ _ hlen, deconvtSTS_length _ _ _ hlen]

theorem claim_C6_correlation_lengths_witness :
    (1 : ℕ) ≤ 1 ∧
    1 ≤ (Option.none : Option ℕ).getD
      ((([[1]] : List (List ℝ)).headD []).length) ∧
    ((acorrt [1] 1).length = 1 ∧ (xcorrt [2] [1] 1 0).length = 1 ∧
      deconvtAssertOk [[1]] [1] 0 1 Option.none) :=
  ⟨le_refl 1, by simp,
    claim_C6_correlation_lengths [1] [2] 1 0 (le_refl 1) [[1]] [1] 1
      Option.none (by simp)⟩

/-- C5: for every response array in `rsp_list`, `deconvf` returns the first
`length` samples of the inverse FFT of
`ffilt × FFT(response) × conj(FFT(source)) / D`, where `ffilt` is the
Gaussian low-pass `exp(−0.5 (f/f0)²)` with its exponent floored at `−700`
times the phase shift `exp(−2πi f tshift)`, and `D` is the source power
spectrum floored pointwise at `waterlevel` times its maximum. -/
theorem claim_C5_deconvf_formula (rspL : List (List ℝ)) (src : List ℝ)
    (sampling_rate waterlevel gauss tshift : ℝ) (lengthOpt nfftOpt : Option ℕ)
    (N nfft : ℕ) [NeZero nfft]
    (hN : N = lengthOpt.getD (rspL.headD []).length)
    (hf : nfft = nfftOpt.getD (nextFastLen N)) :
    deconvf (RspList.multi rspL) src sampling_rate waterlevel gauss tshift
        lengthOpt nfftOpt NormMode.null
      = Except.ok (RfOut.multi (rspL.map fun rsp =>
          deconvfSpecRow rsp src sampling_rate waterlevel gauss tshift
            N nfft)) := by
  subst hN
  subst hf
  have h0 : nfftOpt.getD
      (nextFastLen (lengthOpt.getD (rspL.headD []).length)) ≠ 0 :=
    NeZero.ne _
  simp only [deconvf, getLength]
  rw [dif_neg h0]
  show Except.ok (RfOut.multi (deconvfRows rspL src sampling_rate waterlevel
    gauss tshift (lengthOpt.getD (rspL.headD []).length)
    (nfftOpt.getD (nextFastLen (lengthOpt.getD (rspL.headD []).length))))) = _
  refine congrArg (fun l => Except.ok (RfOut.multi l)) ?_
  unfold deconvfRows
  exact List.map_congr_left fun rsp _ =>
    deconvfRow_eq_spec rsp src sampling_rate waterlevel gauss tshift _ _

theorem claim_C5_deconvf_formula_witness :
    ((1 : ℕ) = (Option.none : Option ℕ).getD
        ((([[1]] : List (List ℝ)).headD []).length)) ∧
    ((1 : ℕ) = (Option.none : Option ℕ).getD (nextFastLen 1)) ∧
    deconvf (RspList.multi [[1]]) [1] 1 (1 / 20) 10 0 Option.none Option.none
        NormMode.null
      = Except.ok (RfOut.multi (([[1]] : List (List ℝ)).map fun rsp =>
          deconvfSpecRow rsp [1] 1 (1 / 20) 10 0 1 1)) :=
  ⟨rfl, by rw [nextFastLen_eq_self 1 fastLenB_one]; rfl,
    claim_C5_deconvf_formula [[1]] [1] 1 (1 / 20) 10 0 Option.none Option.none
      1 1 rfl (by rw [nextFastLen_eq_self 1 fastLenB_one]; rfl)⟩

/-- C2 (amended): `deconv_multi` raises an error before any numeric work
exactly when its assert stage does, and the assert stage inspects only
`rsp[0]` and `nse[0]`: it raises iff the response list is empty
(IndexError), the source is not strictly shorter than the first response,
the noise list is empty (IndexError), or the first noise trace is longer
than the first response.  The lengths of the remaining responses and noise
arrays are never checked. -/
theorem claim_C2_multitaper_asserts (rsp : List (List ℝ)) (src : List ℝ)
    (nse : List (List ℝ)) (sampling_rate tshift : ℝ) (K : ℕ)
    (tband T olap glp : ℝ) (normalize : Option ℕ) (tapT : List (List ℝ))
    (el : List ℝ) :
    (∀ e, deconv_multi rsp src nse sampling_rate tshift K tband T olap glp
        normalize tapT el = Except.error e
      ↔ deconvMultiAsserts rsp src nse = Except.error e) ∧
    ((∃ e, deconvMultiAsserts rsp src nse = Except.error e)
      ↔ ¬ (rsp ≠ [] ∧ src.length < (rsp.headD []).length ∧ nse ≠ []
            ∧ (nse.headD []).length ≤ (rsp.headD []).length)) := by
  constructor
  · intro e
    cases hA : deconvMultiAsserts rsp src nse with
    | error e2 =>
        have hred : deconv_multi rsp src nse sampling_rate tshift K tband T
            olap glp normalize tapT el = Except.error e2 := by
          unfold deconv_multi
          rw [hA]
        rw [hred]
        constructor
        · intro h
          injection h with h2
          rw [h2]
        · intro h
          injection h with h2
          rw [h2]
    | ok u =>
        have hred : deconv_multi rsp src nse sampling_rate tshift K tband T
            olap glp normalize tapT el = Except.ok (deconvMultiCore rsp src
              nse sampling_rate tshift K T olap glp normalize tapT el) := by
          unfold deconv_multi
          rw [hA]
        rw [hred]
        constructor
        · intro h
          exact Except.noConfusion h
        · intro h
          exact Except.noConfusion h
  · cases rsp with
    | nil =>
        refine iff_of_true ⟨_, rfl⟩ ?_
        intro hc
        exact hc.1 rfl
    | cons rsp0 rtail =>
        by_cases h1 : src.length < rsp0.length
        · cases nse with
          | nil =>
              simp only [deconvMultiAsserts]
              rw [if_neg (not_not.mpr h1)]
              refine iff_of_true ⟨_, rfl⟩ ?_
              intro hc
              exact hc.2.2.1 rfl
          | cons nse0 ntail =>
              by_cases h2 : nse0.length ≤ rsp0.length
              · simp only [deconvMultiAsserts]
                rw [if_neg (not_not.mpr h1), if_neg (not_not.mpr h2)]
                refine iff_of_false ?_ ?_
                · rintro ⟨e, he⟩
                  exact Except.noConfusion he
                · intro hc
                  refine hc ⟨by simp, ?_, by simp, ?_⟩
                  · simpa using h1
                  · simpa using h2
              · simp only [deconvMultiAsserts]
                rw [if_neg (not_not.mpr h1), if_pos h2]
                refine iff_of_true ⟨_, rfl⟩ ?_
                intro hc
                apply h2
                simpa using hc.2.2.2
        · simp only [deconvMultiAsserts]
          rw [if_pos h1]
          refine iff_of_true ⟨_, rfl⟩ ?_
          intro hc
          apply h1
          simpa using hc.2.1

/-- C2 counterexample: the source (2 samples) is not strictly shorter than
the second response (1 sample) and the second noise trace (4 samples) is
longer than the response it accompanies, yet the assert stage of
`deconv_multi` raises no error — both asserts look only at `rsp[0]` and
`nse[0]`. -/
theorem claim_C2_multitaper_asserts_counterexample :
    deconvMultiAsserts [[1, 1, 1], [1]] [1, 1] [[1], [1, 1, 1, 1]]
      = Except.ok () := by
  simp only [deconvMultiAsserts]
  rw [if_neg (by simp), if_neg (by simp)]

/-- C3 (amended): for every response trace the while loop of `deconv_iter`
continues exactly while `|d_error| > minderr` and `it < itmax`, where
`d_error` is 100 times the drop in normalized residual power from the
previous iteration (initially the sentinel `100·powerR + minderr`): the
loop stops at the first index where this condition fails, and the returned
iteration count equals that index and never exceeds `itmax`. -/
theorem claim_C3_iteration_stop (rsp : List (List ℝ)) (src : List ℝ)
    (sampling_rate tshift gauss : ℝ) (itmax : ℕ) (minderr : ℝ)
    (normalize : Option ℕ) (h : src.length ≠ 0) :
    (deconv_iter rsp src sampling_rate tshift gauss itmax minderr
        normalize).2
        = rsp.map (fun r0 =>
            (iterFinalState src r0 sampling_rate gauss itmax minderr).it) ∧
    ∀ r0 ∈ rsp, ∃ m, m ≤ itmax
      ∧ (iterFinalState src r0 sampling_rate gauss itmax minderr).it = m
      ∧ (∀ l, l < m → minderr <
            |(iterStatesAt src r0 sampling_rate gauss minderr l).d_error|
          ∧ l < itmax)
      ∧ ¬ (minderr <
            |(iterStatesAt src r0 sampling_rate gauss minderr m).d_error|
          ∧ m < itmax) := by
  refine ⟨deconv_iter_nit_eq rsp src sampling_rate tshift gauss itmax minderr
    normalize h, ?_⟩
  intro r0 _
  obtain ⟨m, hm, hstate, hit, hall, hstop⟩ :=
    iterFinalState_stop src r0 sampling_rate gauss itmax minderr h
  refine ⟨m, hm, hit, ?_, ?_⟩
  · intro l hl
    have hc := hall l hl
    unfold iterCond at hc
    rw [iterStatesAt_it src r0 sampling_rate gauss minderr l h] at hc
    exact hc
  · intro hcon
    apply hstop
    unfold iterCond
    rw [iterStatesAt_it src r0 sampling_rate gauss minderr m h]
    exact hcon

theorem claim_C3_iteration_stop_witness :
    (([1] : List ℝ).length ≠ 0) ∧
    (deconv_iter [[1]] [1] 1 0 1 0 0 Option.none).2
      = [[1]].map (fun r0 => (iterFinalState [1] r0 1 1 0 0).it) :=
  ⟨by simp,
    (claim_C3_iteration_stop [[1]] [1] 1 0 1 0 0 Option.none (by simp)).1⟩

/-- C3 counterexample: with `itmax = 400` and `minderr = 5` an all-zero
response trace performs 0 iterations — the loop exits before any drop in
residual power is computed, because the entry value
`d_error = 100·powerR + minderr` already fails `|d_error| > minderr` when
the filtered-response power `powerR` is zero. -/
theorem claim_C3_iteration_stop_counterexample :
    (deconv_iter [[0, 0, 0, 0]] [1, 0, 0, 0] 1 0 10 400 5 Option.none).2
      = [0] := by
  have hz : ∀ x ∈ ([0, 0, 0, 0] : List ℝ), x = 0 := by
    intro x hx
    simp only [List.mem_cons, List.not_mem_nil, or_false] at hx
    rcases hx with h | h | h | h <;> exact h
  rw [deconv_iter_nit_eq [[0, 0, 0, 0]] [1, 0, 0, 0] 1 0 10 400 5 Option.none
    (by simp)]
  rw [List.map_cons, List.map_nil]
  rw [iterFinalState_zero_rsp_it [1, 0, 0, 0] [0, 0, 0, 0] 1 10 400 5
    (by simp) hz (by norm_num)]

/-- C4: every returned deconvolution array of the four functions has the
configured output length — `length` (defaulting to `len(rsp[0])`) for
`deconvf` with the default FFT size and for `deconvt`, `len(src)` for
`deconv_iter`, and `len(rsp[0])` for `deconv_multi` — whatever the lengths
of the individual response arrays. -/
theorem claim_C4_output_lengths (rsp_list : List (List ℝ)) (src : List ℝ)
    (nse : List (List ℝ))
    (sampling_rate waterlevel gauss tshift spiking minderr : ℝ)
    (T olap glp tband : ℝ) (shift : ℤ) (K itmax : ℕ)
    (lengthOpt : Option ℕ) (nrm : Option ℕ) (nrmF : NormMode)
    (tapT : List (List ℝ)) (el : List ℝ)
    (hL : 1 ≤ lengthOpt.getD (rsp_list.headD []).length) :
    (∀ out, deconvf (RspList.multi rsp_list) src sampling_rate waterlevel
        gauss tshift lengthOpt Option.none nrmF = Except.ok (RfOut.multi out)
      → ∀ row ∈ out, row.length
          = lengthOpt.getD (rsp_list.headD []).length) ∧
    (∀ row ∈ deconvt rsp_list src shift spiking lengthOpt nrm solveToeplitz,
        row.length = lengthOpt.getD (rsp_list.headD []).length) ∧
    (∀ row ∈ (deconv_iter rsp_list src sampling_rate tshift gauss itmax
        minderr nrm).1, row.length = src.length) ∧
    (∀ out, deconv_multi rsp_list src nse sampling_rate tshift K tband T
        olap glp nrm tapT el = Except.ok out →
      ∀ row ∈ out, row.length = (rsp_list.headD []).length) := by
  have h0 : (Option.none : Option ℕ).getD
      (nextFastLen (lengthOpt.getD (rsp_list.headD []).length)) ≠ 0 :=
    nextFastLen_ne_zero _
  haveI : NeZero ((Option.none : Option ℕ).getD
      (nextFastLen (lengthOpt.getD (rsp_list.headD []).length))) := ⟨h0⟩
  haveI : NeZero (nextFastLen (lengthOpt.getD (rsp_list.headD []).length)) :=
    ⟨nextFastLen_ne_zero _⟩
  have hlen : ∀ rsp0 : List ℝ, (deconvfRow rsp0 src sampling_rate waterlevel
      gauss tshift (lengthOpt.getD (rsp_list.headD []).length)
      (nextFastLen (lengthOpt.getD (rsp_list.headD []).length))).length
      = lengthOpt.getD (rsp_list.headD []).length := by
    intro rsp0
    rw [deconvfRow_length]
    exact min_eq_left (nextFastLen_ge _)
  refine ⟨?_, ?_, ?_, ?_⟩
  · intro out hout row hrow
    cases nrmF with
    | null =>
        simp only [deconvf, getLength] at hout
        rw [dif_neg h0] at hout
        injection hout with h2
        injection h2 with h3
        rw [← h3] at hrow
        unfold deconvfRows at hrow
        rcases List.mem_map.mp hrow with ⟨rsp0, -, hEq⟩
        rw [← hEq]
        exact hlen rsp0
    | src =>
        simp only [deconvf, getLength] at hout
        rw [dif_neg h0] at hout
        injection hout with h2
        injection h2 with h3
        rw [← h3] at hrow
        rcases List.mem_map.mp hrow with ⟨rf, hrf, hEq⟩
        rw [← hEq, List.length_map]
        unfold deconvfRows at hrf
        rcases List.mem_map.mp hrf with ⟨rsp0, -, hEq2⟩
        rw [← hEq2]
        exact hlen rsp0
    | idx i =>
        simp only [deconvf, getLength] at hout
        rw [dif_neg h0] at hout
        injection hout with h2
        injection h2 with h3
        rw [← h3] at hrow
        rcases List.mem_map.mp hrow with ⟨rf, hrf, hEq⟩
        rw [← hEq, List.length_map]
        unfold deconvfRows at hrf
        rcases List.mem_map.mp hrf with ⟨rsp0, -, hEq2⟩
        rw [← hEq2]
        exact hlen rsp0
  · intro row hrow
    simp only [deconvt] at hrow
    rcases normScaleR_mem_length nrm _ row hrow with ⟨r, hr, hlen2⟩
    rcases List.mem_map.mp hr with ⟨rsp0, -, hEq⟩
    rw [hlen2, ← hEq, solveToeplitz_length, deconvtSTS_length _ _ _ hL]
  · intro row hrow
    simp only [deconv_iter] at hrow
    rcases normScaleR_mem_length nrm _ row hrow with ⟨r, hr, hlen2⟩
    rw [List.map_map] at hr
    rcases List.mem_map.mp hr with ⟨r0, -, hEq⟩
    rw [hlen2, ← hEq]
    exact iterComponent_length src r0 sampling_rate tshift gauss itmax minderr
  · intro out hout row hrow
    unfold deconv_multi at hout
    cases hA : deconvMultiAsserts rsp_list src nse with
    | error e =>
      rw [hA] at hout
      exact Except.noConfusion hout
    | ok u =>
      rw [hA] at hout
      injection hout with hcore
      rw [← hcore] at hrow
      simp only [deconvMultiCore] at hrow
      rcases normScaleR_mem_length nrm _ row hrow with ⟨r, hr, hlen2⟩
      rcases List.mem_map.mp hr with ⟨cidx, -, hEq⟩
      rw [hlen2, ← hEq]
      unfold deconvMultiRow
      exact deconvMultiRowOf_length rsp_list src sampling_rate tshift K T olap
        glp tapT el _ _

theorem claim_C4_output_lengths_witness :
    (1 ≤ (Option.none : Option ℕ).getD
        ((([[1]] : List (List ℝ)).headD []).length)) ∧
    ((∀ out, deconvf (RspList.multi [[1]]) [1] 1 (1 / 20) 10 0 Option.none
        Option.none NormMode.null = Except.ok (RfOut.multi out)
      → ∀ row ∈ out, row.length = (Option.none : Option ℕ).getD
          ((([[1]] : List (List ℝ)).headD []).length)) ∧
    (∀ row ∈ deconvt [[1]] [1] 0 1 Option.none Option.none solveToeplitz,
        row.length = (Option.none : Option ℕ).getD
          ((([[1]] : List (List ℝ)).headD []).length)) ∧
    (∀ row ∈ (deconv_iter [[1]] [1] 1 0 10 0 0 Option.none).1,
        row.length = ([1] : List ℝ).length) ∧
    (∀ out, deconv_multi [[1]] [1] [] 1 0 0 0 0 0 0 Option.none [] []
        = Except.ok out →
      ∀ row ∈ out, row.length = (([[1]] : List (List ℝ)).headD []).length)) :=
  ⟨by simp,
    claim_C4_output_lengths [[1]] [1] [] 1 (1 / 20) 10 0 1 0 0 0 0 0 0 0 0
      Option.none Option.none NormMode.null [] [] (by simp)⟩

/-- C8: for each of the four deconvolution functions, applying the function
to an all-zero response array yields an all-zero result array, whatever the
other responses, the noise, the source and the normalization index are. -/
theorem claim_C8_zero_response (rsp_list : List (List ℝ)) (src : List ℝ)
    (nse : List (List ℝ))
    (sampling_rate waterlevel gauss tshift spiking minderr : ℝ)
    (T olap glp tband : ℝ) (shift : ℤ) (K itmax : ℕ)
    (lengthOpt : Option ℕ) (nrm : Option ℕ) (tapT : List (List ℝ))
    (el : List ℝ) (c : ℕ)
    (hz : ∀ x ∈ rsp_list.getD c [], x = 0) (hsrc : src.length ≠ 0) :
    (∀ out, deconvf (RspList.multi rsp_list) src sampling_rate waterlevel
        gauss tshift lengthOpt Option.none NormMode.null
          = Except.ok (RfOut.multi out) →
      ∀ v ∈ out.getD c [], v = 0) ∧
    (∀ v ∈ (deconvt rsp_list src shift spiking lengthOpt nrm
        solveToeplitz).getD c [], v = 0) ∧
    (∀ v ∈ ((deconv_iter rsp_list src sampling_rate tshift gauss itmax
        minderr nrm).1).getD c [], v = 0) ∧
    (∀ out, deconv_multi rsp_list src nse sampling_rate tshift K tband T
        olap glp nrm tapT el = Except.ok out →
      ∀ v ∈ out.getD c [], v = 0) := by
  have h0 : (Option.none : Option ℕ).getD
      (nextFastLen (lengthOpt.getD (rsp_list.headD []).length)) ≠ 0 :=
    nextFastLen_ne_zero _
  haveI : NeZero ((Option.none : Option ℕ).getD
      (nextFastLen (lengthOpt.getD (rsp_list.headD []).length))) := ⟨h0⟩
  haveI : NeZero (nextFastLen (lengthOpt.getD (rsp_list.headD []).length)) :=
    ⟨nextFastLen_ne_zero _⟩
  refine ⟨?_, ?_, ?_, ?_⟩
  · intro out hout v hv
    simp only [deconvf, getLength] at hout
    rw [dif_neg h0] at hout
    injection hout with hout2
    injection hout2 with hout3
    rw [← hout3] at hv
    by_cases hc : c < rsp_list.length
    · unfold deconvfRows at hv
      rw [getD_map_lt _ rsp_list c [] [] hc] at hv
      exact deconvfRow_zero _ src sampling_rate waterlevel gauss tshift _ _
        hz v hv
    · rw [List.getD_eq_default _ _ (by
        unfold deconvfRows
        rw [List.length_map]
        omega)] at hv
      exact absurd hv (List.not_mem_nil v)
  · intro v hv
    simp only [deconvt] at hv
    refine normScaleR_row_zero nrm _ c ?_ v hv
    by_cases hc : c < rsp_list.length
    · rw [getD_map_lt _ rsp_list c [] [] hc]
      exact solveToeplitz_zero _ _ (xcorrt_zero_left _ src _ shift hz)
    · rw [List.getD_eq_default _ _ (by rw [List.length_map]; omega)]
      intro x hx
      exact absurd hx (List.not_mem_nil x)
  · intro v hv
    simp only [deconv_iter] at hv
    rw [List.map_map] at hv
    refine normScaleR_row_zero nrm _ c ?_ v hv
    by_cases hc : c < rsp_list.length
    · rw [getD_map_lt _ rsp_list c [] [] hc]
      exact iterComponent_zero_row src _ sampling_rate tshift gauss itmax
        minderr hsrc hz
    · rw [List.getD_eq_default _ _ (by rw [List.length_map]; omega)]
      intro x hx
      exact absurd hx (List.not_mem_nil x)
  · intro out hout v hv
    unfold deconv_multi at hout
    cases hA : deconvMultiAsserts rsp_list src nse with
    | error e =>
      rw [hA] at hout
      exact Except.noConfusion hout
    | ok u =>
      rw [hA] at hout
      injection hout with hcore
      rw [← hcore] at hv
      simp only [deconvMultiCore] at hv
      refine normScaleR_row_zero nrm _ c ?_ v hv
      by_cases hc : c < rsp_list.length
      · have hc2 : c < (List.range rsp_list.length).length := by
          rw [List.length_range]
          exact hc
        rw [getD_map_lt _ (List.range rsp_list.length) c [] 0 hc2]
        have hcr : (List.range rsp_list.length).getD c 0 = c := by
          rw [List.getD_eq_getElem _ _ hc2]
          exact List.getElem_range _ _
        rw [hcr]
        unfold deconvMultiRow
        exact deconvMultiRowOf_zero rsp_list src sampling_rate tshift K T
          olap glp tapT el _ _ hz
      · rw [List.getD_eq_default _ _ (by
          rw [List.length_map, List.length_range]
          omega)]
        intro x hx
        exact absurd hx (List.not_mem_nil x)

theorem claim_C8_zero_response_witness :
    (∀ x ∈ (([[0]] : List (List ℝ)).getD 0 []), x = 0) ∧
    (([1] : List ℝ).length ≠ 0) ∧
    ((∀ out, deconvf (RspList.multi [[0]]) [1] 1 (1 / 20) 10 0 Option.none
        Option.none NormMode.null = Except.ok (RfOut.multi out) →
      ∀ v ∈ out.getD 0 [], v = 0) ∧
    (∀ v ∈ (deconvt [[0]] [1] 0 1 Option.none Option.none
        solveToeplitz).getD 0 [], v = 0) ∧
    (∀ v ∈ ((deconv_iter [[0]] [1] 1 0 10 0 0 Option.none).1).getD 0 [],
        v = 0) ∧
    (∀ out, deconv_multi [[0]] [1] [] 1 0 0 0 0 0 0 Option.none [] []
        = Except.ok out →
      ∀ v ∈ out.getD 0 [], v = 0)) :=
  ⟨by intro x hx; simpa using hx, by simp,
    claim_C8_zero_response [[0]] [1] [] 1 (1 / 20) 10 0 1 0 0 0 0 0 0 0 0
      Option.none Option.none [] [] 0 (by intro x hx; simpa using hx)
      (by simp)⟩

/-- A list whose first entry is 1 and whose later entries are 0 zero-pads
to the unit spike at sample 0. -/
theorem padZ_spike_one (n : ℕ) [NeZero n] (l : List ℝ) (h0 : l.getD 0 0 = 1)
    (hrest : ∀ m, 1 ≤ m → l.getD m 0 = 0) :
    (padZ l : ZMod n → ℝ) = spike 0 1 := by
  funext j
  unfold padZ spike
  by_cases hj : j = 0
  · rw [hj, if_pos rfl, ZMod.val_zero]
    exact h0
  · rw [if_neg hj]
    refine hrest j.val ?_
    have hv : j.val ≠ 0 := fun hc => hj ((ZMod.val_eq_zero j).mp hc)
    omega

/-- The DFT of the unit spike at sample 0 is identically 1. -/
theorem dftZ_spike_zero_one (n : ℕ) [NeZero n] (k : ZMod n) :
    dftZ (cR (spike (0 : ZMod n) 1)) k = 1 := by
  rw [dftZ_spike]
  rw [zero_mul, neg_zero, eZ_zero]
  simp

/-- Filtering the unit spike with a real filter and reading sample 0 gives
the mean of the filter values. -/
theorem applyFilterZ_spike_gauss (n : ℕ) [NeZero n] (g : ZMod n → ℝ) :
    applyFilterZ (spike (0 : ZMod n) 1) (fun k => (g k : ℂ)) 0
      = (∑ k, g k) / n := by
  unfold applyFilterZ idftZ
  simp only [dftZ_spike_zero_one, one_mul, zero_mul, eZ_zero, mul_one]
  rw [← Complex.ofReal_sum]
  rw [show ((n : ℕ) : ℂ) = (((n : ℕ) : ℝ) : ℂ) from by push_cast; rfl]
  rw [← Complex.ofReal_div, Complex.ofReal_re]

/-- A sum of squares with one nonzero coordinate is positive. -/
theorem sum_sq_pos_of_ne (n : ℕ) [NeZero n] (f : ZMod n → ℝ) (j : ZMod n)
    (h : f j ≠ 0) : 0 < ∑ k, f k ^ 2 := by
  have h1 : 0 < f j ^ 2 := by positivity
  exact lt_of_lt_of_le h1
    (Finset.single_le_sum (fun k _ => sq_nonneg (f k)) (Finset.mem_univ j))

/-- The filtered power of the response `[1,0,0,0]` deconvolved against the
source `[1,0,0,0]` at sampling rate 1 and Gauss parameter 10 is nonzero
(the filtered spike keeps the positive mean of the Gaussian filter). -/
theorem iterPowerR_one_spike :
    iterPowerR [1, 0, 0, 0] [1, 0, 0, 0] 1 10 ≠ 0 := by
  have hlen : ([1, 0, 0, 0] : List ℝ).length ≠ 0 := by simp
  unfold iterPowerR
  rw [dif_neg hlen]
  haveI : NeZero ([1, 0, 0, 0] : List ℝ).length := ⟨hlen⟩
  have hpad : (padZ [1, 0, 0, 0] :
      ZMod ([1, 0, 0, 0] : List ℝ).length → ℝ) = spike 0 1 := by
    refine padZ_spike_one _ [1, 0, 0, 0] rfl ?_
    intro m hm
    rcases m with _ | _ | _ | m2
    · omega
    · rfl
    · rfl
    · rcases m2 with _ | m3
      · rfl
      · refine List.getD_eq_default _ _ ?_
        simp only [List.length_cons, List.length_nil]
        omega
  refine ne_of_gt (sum_sq_pos_of_ne _ _ 0 ?_)
  rw [hpad, applyFilterZ_spike_gauss]
  have hpos : 0 < ∑ k : ZMod ([1, 0, 0, 0] : List ℝ).length,
      gaussFilter (1 / 1) ([1, 0, 0, 0] : List ℝ).length 10 Option.none k :=
    Finset.sum_pos (fun k _ => gaussFilter_pos _ _ _ _ k) Finset.univ_nonempty
  exact ne_of_gt (div_pos hpos (by
    exact_mod_cast Nat.pos_of_ne_zero hlen))

/-- C7: for every response trace with nonzero filtered power, the
per-iteration normalized residual power values recorded by `deconv_iter`
are non-increasing over the iterations actually performed:
`rms[it] ≤ rms[it−1]` for every performed iteration `it ≥ 1`. -/
theorem claim_C7_rms_monotone (src r0 : List ℝ) (sampling_rate gauss : ℝ)
    (itmax : ℕ) (minderr : ℝ) (h : src.length ≠ 0)
    (hpw : iterPowerR src r0 sampling_rate gauss ≠ 0) :
    ∀ it, 1 ≤ it →
      it < (iterFinalState src r0 sampling_rate gauss itmax minderr).it →
      (iterFinalState src r0 sampling_rate gauss itmax minderr).rms it
        ≤ (iterFinalState src r0 sampling_rate gauss itmax minderr).rms
            (it - 1) := by
  intro it h1 h2
  obtain ⟨-, -, -, hD⟩ :=
    iterFinalState_inv src r0 sampling_rate gauss itmax minderr h hpw
  have hco : it - 1 + 1 = it := by omega
  have hstep := hD (it - 1) (by omega)
  rw [hco] at hstep
  exact hstep

theorem claim_C7_rms_monotone_witness :
    (([1, 0, 0, 0] : List ℝ).length ≠ 0) ∧
    (iterPowerR [1, 0, 0, 0] [1, 0, 0, 0] 1 10 ≠ 0) ∧
    ∀ it, 1 ≤ it →
      it < (iterFinalState [1, 0, 0, 0] [1, 0, 0, 0] 1 10 400 5).it →
      (iterFinalState [1, 0, 0, 0] [1, 0, 0, 0] 1 10 400 5).rms it
        ≤ (iterFinalState [1, 0, 0, 0] [1, 0, 0, 0] 1 10 400 5).rms
            (it - 1) :=
  ⟨by simp, iterPowerR_one_spike,
    claim_C7_rms_monotone [1, 0, 0, 0] [1, 0, 0, 0] 1 10 400 5 (by simp)
      iterPowerR_one_spike⟩

/-- With an integer `normalize`, the multi-trace path of `deconvf` scales
every row by `1 / np.max(rf_list[normalize])` — `np.max` on a complex row
being numpy's lexicographic maximum, not a maximum of absolute values. -/
theorem deconvf_multi_idx_eq (rspL : List (List ℝ)) (src : List ℝ)
    (sampling_rate waterlevel gauss tshift : ℝ) (lengthOpt nfftOpt : Option ℕ)
    (N nfft : ℕ) [NeZero nfft] (i : ℕ)
    (hN : N = lengthOpt.getD (rspL.headD []).length)
    (hf : nfft = nfftOpt.getD (nextFastLen N)) :
    deconvf (RspList.multi rspL) src sampling_rate waterlevel gauss tshift
        lengthOpt nfftOpt (NormMode.idx i)
      = Except.ok (RfOut.multi
          ((deconvfRows rspL src sampling_rate waterlevel gauss tshift N
              nfft).map
            fun rf => rf.map fun v => v * (1 / npMaxC
              ((deconvfRows rspL src sampling_rate waterlevel gauss tshift N
                nfft).getD i [])))) := by
  subst hN
  subst hf
  have h0 : nfftOpt.getD
      (nextFastLen (lengthOpt.getD (rspL.headD []).length)) ≠ 0 :=
    NeZero.ne _
  simp only [deconvf, getLength]
  rw [dif_neg h0]

/-- C1 (amended): with an integer `normalize` index `i`, `deconvt`,
`deconv_iter` and `deconv_multi` divide every row by the maximum absolute
value of pre-normalization row `i`, so (when that maximum is nonzero) row
`i` of the output has maximum absolute value exactly 1 and every other row
is scaled by the same factor; `deconvf` instead scales every row by
`1 / np.max(rf_list[i])` — numpy's lexicographic complex maximum, not a
maximum of absolute values — so its rows share a common factor but row `i`
need not attain maximum absolute value 1. -/
theorem claim_C1_normalization (rsp_list : List (List ℝ)) (src : List ℝ)
    (nse : List (List ℝ))
    (sampling_rate waterlevel gauss tshift spiking minderr : ℝ)
    (T olap glp tband : ℝ) (shift : ℤ) (K itmax : ℕ)
    (lengthOpt nfftOpt : Option ℕ) (tapT : List (List ℝ)) (el : List ℝ)
    (i N nfft : ℕ) [NeZero nfft]
    (hN : N = lengthOpt.getD (rsp_list.headD []).length)
    (hf : nfft = nfftOpt.getD (nextFastLen N))
    (preF : List (List ℂ))
    (hpreF : preF = deconvfRows rsp_list src sampling_rate waterlevel gauss
      tshift N nfft)
    (pre2 pre3 pre4 : List (List ℝ))
    (hpre2 : pre2 = rsp_list.map fun rsp => solveToeplitz
      (deconvtSTS src N spiking) (xcorrt rsp src N shift))
    (hpre3 : pre3 = (rsp_list.map fun r0 =>
      iterComponent src r0 sampling_rate tshift gauss itmax minderr).map
        Prod.fst)
    (hpre4 : pre4 = (List.range rsp_list.length).map
      (deconvMultiRow rsp_list src nse sampling_rate tshift K T olap glp
        tapT el)) :
    (∀ out, deconvf (RspList.multi rsp_list) src sampling_rate waterlevel
        gauss tshift lengthOpt nfftOpt (NormMode.idx i)
          = Except.ok (RfOut.multi out) →
      ∀ k, out.getD k []
        = (preF.getD k []).map fun v => v * (1 / npMaxC (preF.getD i []))) ∧
    (maxAbsR (pre2.getD i []) ≠ 0 →
      maxAbsR ((deconvt rsp_list src shift spiking lengthOpt (Option.some i)
          solveToeplitz).getD i []) = 1
      ∧ ∀ k, (deconvt rsp_list src shift spiking lengthOpt (Option.some i)
          solveToeplitz).getD k []
        = (pre2.getD k []).map fun v => (1 / maxAbsR (pre2.getD i [])) * v) ∧
    (maxAbsR (pre3.getD i []) ≠ 0 →
      maxAbsR (((deconv_iter rsp_list src sampling_rate tshift gauss itmax
          minderr (Option.some i)).1).getD i []) = 1
      ∧ ∀ k, ((deconv_iter rsp_list src sampling_rate tshift gauss itmax
          minderr (Option.some i)).1).getD k []
        = (pre3.getD k []).map fun v => (1 / maxAbsR (pre3.getD i [])) * v) ∧
    (∀ out, deconv_multi rsp_list src nse sampling_rate tshift K tband T
        olap glp (Option.some i) tapT el = Except.ok out →
      maxAbsR (pre4.getD i []) ≠ 0 →
        maxAbsR (out.getD i []) = 1
        ∧ ∀ k, out.getD k []
          = (pre4.getD k []).map fun v =>
              (1 / maxAbsR (pre4.getD i [])) * v) := by
  subst hN
  subst hf
  subst hpreF
  subst hpre2
  subst hpre3
  subst hpre4
  refine ⟨?_, ?_, ?_, ?_⟩
  · intro out hout k
    rw [deconvf_multi_idx_eq rsp_list src sampling_rate waterlevel gauss
      tshift lengthOpt nfftOpt _ _ i rfl rfl] at hout
    injection hout with h2
    injection h2 with h3
    rw [← h3]
    set rows := deconvfRows rsp_list src sampling_rate waterlevel gauss
      tshift (lengthOpt.getD (rsp_list.headD []).length)
      (nfftOpt.getD (nextFastLen (lengthOpt.getD (rsp_list.headD []).length)))
      with hrows
    by_cases hk : k < rows.length
    · exact getD_map_lt _ _ k [] [] hk
    · have hk2 : rows.getD k ([] : List ℂ) = [] :=
        List.getD_eq_default _ _ (by omega)
      have hk3 : (rows.map fun rf => rf.map fun v =>
          v * (1 / npMaxC (rows.getD i []))).getD k ([] : List ℂ) = [] :=
        List.getD_eq_default _ _ (by rw [List.length_map]; omega)
      rw [hk2, hk3]
      rfl
  · intro hnz
    exact normScaleR_spec _ i hnz
  · intro hnz
    exact normScaleR_spec _ i hnz
  · intro out hout hnz
    unfold deconv_multi at hout
    cases hA : deconvMultiAsserts rsp_list src nse with
    | error e =>
      rw [hA] at hout
      exact Except.noConfusion hout
    | ok u =>
        rw [hA] at hout
        injection hout with hcore
        rw [← hcore]
        exact normScaleR_spec _ i hnz

theorem claim_C1_normalization_witness :
    ((1 : ℕ) = (Option.none : Option ℕ).getD
        ((([[1]] : List (List ℝ)).headD []).length)) ∧
    ((1 : ℕ) = (Option.none : Option ℕ).getD (nextFastLen 1)) ∧
    ((∀ out, deconvf (RspList.multi [[1]]) [1] 1 (1 / 20) 10 0 Option.none
        Option.none (NormMode.idx 0) = Except.ok (RfOut.multi out) →
      ∀ k, out.getD k []
        = ((deconvfRows [[1]] [1] 1 (1 / 20) 10 0 1 1).getD k []).map
            fun v => v * (1 / npMaxC
              ((deconvfRows [[1]] [1] 1 (1 / 20) 10 0 1 1).getD 0 []))) ∧
    (maxAbsR ((([[1]] : List (List ℝ)).map fun rsp => solveToeplitz
        (deconvtSTS [1] 1 1) (xcorrt rsp [1] 1 0)).getD 0 []) ≠ 0 →
      maxAbsR ((deconvt [[1]] [1] 0 1 Option.none (Option.some 0)
          solveToeplitz).getD 0 []) = 1
      ∧ ∀ k, (deconvt [[1]] [1] 0 1 Option.none (Option.some 0)
          solveToeplitz).getD k []
        = ((([[1]] : List (List ℝ)).map fun rsp => solveToeplitz
            (deconvtSTS [1] 1 1) (xcorrt rsp [1] 1 0)).getD k []).map
              fun v => (1 / maxAbsR ((([[1]] : List (List ℝ)).map fun rsp =>
                solveToeplitz (deconvtSTS [1] 1 1)
                  (xcorrt rsp [1] 1 0)).getD 0 [])) * v) ∧
    (maxAbsR (((([[1]] : List (List ℝ)).map fun r0 =>
        iterComponent [1] r0 1 0 10 0 0).map Prod.fst).getD 0 []) ≠ 0 →
      maxAbsR (((deconv_iter [[1]] [1] 1 0 10 0 0
          (Option.some 0)).1).getD 0 []) = 1
      ∧ ∀ k, ((deconv_iter [[1]] [1] 1 0 10 0 0
          (Option.some 0)).1).getD k []
        = (((([[1]] : List (List ℝ)).map fun r0 =>
            iterComponent [1] r0 1 0 10 0 0).map Prod.fst).getD k []).map
              fun v => (1 / maxAbsR (((([[1]] : List (List ℝ)).map fun r0 =>
                iterComponent [1] r0 1 0 10 0 0).map
                  Prod.fst).getD 0 [])) * v) ∧
    (∀ out, deconv_multi [[1]] [1] [] 1 0 0 0 0 0 0 (Option.some 0) [] []
        = Except.ok out →
      maxAbsR (((List.range ([[1]] : List (List ℝ)).length).map
          (deconvMultiRow [[1]] [1] [] 1 0 0 0 0 0 [] [])).getD 0 []) ≠ 0 →
        maxAbsR (out.getD 0 []) = 1
        ∧ ∀ k, out.getD k []
          = (((List.range ([[1]] : List (List ℝ)).length).map
              (deconvMultiRow [[1]] [1] [] 1 0 0 0 0 0 [] [])).getD
                k []).map fun v => (1 / maxAbsR (((List.range
                  ([[1]] : List (List ℝ)).length).map (deconvMultiRow [[1]]
                    [1] [] 1 0 0 0 0 0 [] [])).getD 0 [])) * v)) :=
  ⟨rfl, by rw [nextFastLen_eq_self 1 fastLenB_one]; rfl,
    claim_C1_normalization [[1]] [1] [] 1 (1 / 20) 10 0 1 0 0 0 0 0 0 0 0
      Option.none Option.none [] [] 0 1 1 rfl
      (by rw [nextFastLen_eq_self 1 fastLenB_one]; rfl)
      (deconvfRows [[1]] [1] 1 (1 / 20) 10 0 1 1) rfl
      (([[1]] : List (List ℝ)).map fun rsp => solveToeplitz
        (deconvtSTS [1] 1 1) (xcorrt rsp [1] 1 0))
      ((([[1]] : List (List ℝ)).map fun r0 =>
        iterComponent [1] r0 1 0 10 0 0).map Prod.fst)
      ((List.range ([[1]] : List (List ℝ)).length).map
        (deconvMultiRow [[1]] [1] [] 1 0 0 0 0 0 [] []))
      rfl rfl rfl⟩

/-! ## A concrete two-point run of `deconvf` with integer normalization -/

/-- Expanding a sum over `ZMod 2`. -/
theorem sum_zmod_two {M : Type} [AddCommMonoid M] (f : ZMod 2 → M) :
    ∑ k, f k = f 0 + f 1 := by
  have huniv : (Finset.univ : Finset (ZMod 2)) = {0, 1} := by decide
  rw [huniv, Finset.sum_insert (by decide), Finset.sum_singleton]

theorem eZ_two_one : eZ 2 1 = -1 := by
  unfold eZ
  have hv : ((1 : ZMod 2)).val = 1 := by decide
  rw [hv]
  have harg : (2 * (Real.pi : ℂ) * Complex.I * ((1 : ℕ) : ℂ) / ((2 : ℕ) : ℂ))
      = (Real.pi : ℂ) * Complex.I := by
    push_cast
    ring
  rw [harg]
  exact Complex.exp_pi_mul_I

/-- The two-point DFT of the padded source `[1, 0]` is identically 1. -/
theorem dft_src_two : ∀ k : ZMod 2,
    dftZ (cR (padZ [1, 0] : ZMod 2 → ℝ)) k = 1 := by
  intro k
  have hpad : (padZ [1, 0] : ZMod 2 → ℝ) = spike 0 1 := by
    refine padZ_spike_one 2 [1, 0] rfl ?_
    intro m hm
    rcases m with _ | _ | m2
    · omega
    · rfl
    · refine List.getD_eq_default _ _ ?_
      simp only [List.length_cons, List.length_nil]
      omega
  rw [hpad]
  exact dftZ_spike_zero_one 2 k

/-- The two-point DFT values of the padded response `[-5/2, 3/2]`. -/
theorem dft_rsp_two_zero :
    dftZ (cR (padZ [-5 / 2, 3 / 2] : ZMod 2 → ℝ)) 0 = -1 := by
  unfold dftZ
  rw [sum_zmod_two]
  have hx0 : cR (padZ [(-5) / 2, 3 / 2] : ZMod 2 → ℝ) 0 = ((-5 / 2 : ℝ) : ℂ) := by
    unfold cR padZ
    rw [ZMod.val_zero]
    rfl
  have hx1 : cR (padZ [(-5) / 2, 3 / 2] : ZMod 2 → ℝ) 1 = ((3 / 2 : ℝ) : ℂ) := by
    unfold cR padZ
    have hv : ((1 : ZMod 2)).val = 1 := by decide
    rw [hv]
    rfl
  rw [hx0, hx1]
  have e0 : -((0 : ZMod 2) * 0) = 0 := by decide
  have e1 : -((1 : ZMod 2) * 0) = 0 := by decide
  rw [e0, e1, eZ_zero]
  push_cast
  ring

theorem dft_rsp_two_one :
    dftZ (cR (padZ [-5 / 2, 3 / 2] : ZMod 2 → ℝ)) 1 = -4 := by
  unfold dftZ
  rw [sum_zmod_two]
  have hx0 : cR (padZ [(-5) / 2, 3 / 2] : ZMod 2 → ℝ) 0 = ((-5 / 2 : ℝ) : ℂ) := by
    unfold cR padZ
    rw [ZMod.val_zero]
    rfl
  have hx1 : cR (padZ [(-5) / 2, 3 / 2] : ZMod 2 → ℝ) 1 = ((3 / 2 : ℝ) : ℂ) := by
    unfold cR padZ
    have hv : ((1 : ZMod 2)).val = 1 := by decide
    rw [hv]
    rfl
  rw [hx0, hx1]
  have e0 : -((0 : ZMod 2) * 1) = 0 := by decide
  have e1 : -((1 : ZMod 2) * 1) = 1 := by decide
  rw [e0, e1, eZ_zero, eZ_two_one]
  push_cast
  ring

/-- The waterlevel-floored source power spectrum of `[1, 0]` at waterlevel
`1/20` is identically 1. -/
theorem water_src_two : ∀ k : ZMod 2,
    specSrcWater [1, 0] (1 / 20) 2 k = 1 := by
  intro k
  unfold specSrcWater
  simp only [dft_src_two, map_one, mul_one]
  have hofn : (List.ofFn fun _ : Fin 2 => (1 : ℝ)) = [1, 1] := by
    simp [List.ofFn_succ]
  rw [hofn]
  have hmax : npMaxR [1, 1] = 1 := by
    unfold npMaxR
    simp
  rw [hmax]
  rw [max_eq_left (by norm_num)]

/-- The Gaussian low-pass values on the two-point grid at `f0 = 10`,
`dt = 1`. -/
theorem gauss_two_zero :
    gaussFilter (1 : ℝ) 2 10 (Option.some (-700)) 0 = 1 := by
  unfold gaussFilter fftfreq fftfreqInt
  rw [ZMod.val_zero]
  norm_num

theorem gauss_two_one :
    gaussFilter (1 : ℝ) 2 10 (Option.some (-700)) 1
      = Real.exp (-(1 / 800)) := by
  unfold gaussFilter fftfreq fftfreqInt
  have hv : ((1 : ZMod 2)).val = 1 := by decide
  rw [hv]
  norm_num

/-- The two-point inverse DFT, sample 0. -/
theorem idftZ_two_zero (Y : ZMod 2 → ℂ) : idftZ Y 0 = (Y 0 + Y 1) / 2 := by
  unfold idftZ
  rw [sum_zmod_two]
  have e0 : (0 : ZMod 2) * 0 = 0 := by decide
  have e1 : (0 : ZMod 2) * 1 = 0 := by decide
  rw [e0, e1, eZ_zero, mul_one, mul_one]
  norm_num

/-- The two-point inverse DFT, sample 1. -/
theorem idftZ_two_one (Y : ZMod 2 → ℂ) : idftZ Y 1 = (Y 0 - Y 1) / 2 := by
  unfold idftZ
  rw [sum_zmod_two]
  have e0 : (1 : ZMod 2) * 0 = 0 := by decide
  have e1 : (1 : ZMod 2) * 1 = 1 := by decide
  rw [e0, e1, eZ_zero, eZ_two_one, mul_one]
  push_cast
  ring

/-- The un-normalized `deconvf` row for response `[-5/2, 3/2]`, source
`[1, 0]`, sampling rate 1, waterlevel `1/20`, Gauss parameter 10 and
`tshift = 0` on the two-point grid. -/
theorem deconvfRow_two_eval :
    deconvfRow [-5 / 2, 3 / 2] [1, 0] 1 (1 / 20) 10 0 2 2
      = [(((-1 - 4 * Real.exp (-(1 / 800))) / 2 : ℝ) : ℂ),
         (((-1 + 4 * Real.exp (-(1 / 800))) / 2 : ℝ) : ℂ)] := by
  unfold deconvfRow
  simp only [List.ofFn_succ, List.ofFn_zero, Fin.val_zero, Fin.val_one,
    Fin.succ_zero_eq_one, Nat.cast_zero, Nat.cast_one, List.take_succ_cons,
    List.take_nil, List.take_zero]
  rw [idftZ_two_zero, idftZ_two_one]
  simp only [phaseShiftFilter_tshift_zero, dft_src_two, water_src_two,
    gauss_two_zero, gauss_two_one, dft_rsp_two_zero, dft_rsp_two_one,
    map_one, mul_one, Complex.ofReal_one, div_one, one_mul]
  refine List.cons_eq_cons.mpr ⟨?_, List.cons_eq_cons.mpr ⟨?_, rfl⟩⟩
  · push_cast
    ring
  · push_cast
    ring

/-- C1 counterexample: `deconvf` on the two-sample response `[-5/2, 3/2]`
against the source `[1, 0]` with `normalize = 0` returns a trace whose
maximum absolute value is `(1+4e^(-1/800))/(4e^(-1/800)-1) > 1`, not 1 —
the code divides by the lexicographic `np.max`, which here is the positive
sample `(4e^(-1/800)-1)/2` rather than the absolutely larger negative
sample. -/
theorem claim_C1_normalization_counterexample :
    ∃ out, deconvf (RspList.multi [[-5 / 2, 3 / 2]]) [1, 0] 1 (1 / 20) 10 0
        Option.none Option.none (NormMode.idx 0)
      = Except.ok (RfOut.multi out) ∧ maxAbsC (out.getD 0 []) ≠ 1 := by
  have hnf : (2 : ℕ) = (Option.none : Option ℕ).getD (nextFastLen 2) := by
    rw [nextFastLen_eq_self 2 fastLenB_two]
    rfl
  have hmain := deconvf_multi_idx_eq [[-5 / 2, 3 / 2]] [1, 0] 1 (1 / 20) 10 0
    Option.none Option.none 2 2 0 rfl hnf
  refine ⟨_, hmain, ?_⟩
  set g := Real.exp (-(1 / 800)) with hgdef
  have hgpos : 0 < g := Real.exp_pos _
  have hglb : 1 - 1 / 800 ≤ g := by
    have h := Real.add_one_le_exp (-(1 / 800))
    rw [← hgdef] at h
    linarith
  have hz0neg : ((-1 - 4 * g) / 2 : ℝ) < 0 := by linarith
  have hz1pos : (0 : ℝ) < (-1 + 4 * g) / 2 := by linarith
  have hz01 : ((-1 - 4 * g) / 2 : ℝ) < (-1 + 4 * g) / 2 := by linarith
  have hrows : deconvfRows [[-5 / 2, 3 / 2]] [1, 0] 1 (1 / 20) 10 0 2 2
      = [[(((-1 - 4 * g) / 2 : ℝ) : ℂ), (((-1 + 4 * g) / 2 : ℝ) : ℂ)]] := by
    unfold deconvfRows
    rw [List.map_cons, List.map_nil, deconvfRow_two_eval, hgdef]
  rw [hrows]
  simp only [List.map_cons, List.map_nil, List.getD_cons_zero]
  have hmaxc : npMaxC [(((-1 - 4 * g) / 2 : ℝ) : ℂ),
      (((-1 + 4 * g) / 2 : ℝ) : ℂ)] = (((-1 + 4 * g) / 2 : ℝ) : ℂ) := by
    unfold npMaxC
    simp only [List.headD_cons, List.foldl_cons, List.foldl_nil]
    have haa : lexMaxC (((-1 - 4 * g) / 2 : ℝ) : ℂ)
        (((-1 - 4 * g) / 2 : ℝ) : ℂ) = (((-1 - 4 * g) / 2 : ℝ) : ℂ) := by
      unfold lexMaxC
      rw [if_neg]
      rintro (h | ⟨-, h⟩) <;> exact lt_irrefl _ h
    rw [haa]
    have hcond : ((((-1 - 4 * g) / 2 : ℝ) : ℂ)).re
        < ((((-1 + 4 * g) / 2 : ℝ) : ℂ)).re := by
      rw [Complex.ofReal_re, Complex.ofReal_re]
      exact hz01
    unfold lexMaxC
    rw [if_pos (Or.inl hcond)]
  rw [hmaxc]
  have hz1ne : (((-1 + 4 * g) / 2 : ℝ) : ℂ) ≠ 0 :=
    Complex.ofReal_ne_zero.mpr (ne_of_gt hz1pos)
  have hscale0 : (((-1 - 4 * g) / 2 : ℝ) : ℂ)
      * (1 / (((-1 + 4 * g) / 2 : ℝ) : ℂ))
      = (((((-1 - 4 * g) / 2) / ((-1 + 4 * g) / 2)) : ℝ) : ℂ) := by
    push_cast
    rw [mul_one_div]
  have hscale1 : (((-1 + 4 * g) / 2 : ℝ) : ℂ)
      * (1 / (((-1 + 4 * g) / 2 : ℝ) : ℂ)) = 1 := by
    rw [mul_one_div, div_self hz1ne]
  rw [hscale0, hscale1]
  have habs : Complex.abs (((((-1 - 4 * g) / 2) / ((-1 + 4 * g) / 2)) : ℝ) : ℂ)
      = ((1 + 4 * g) / 2) / ((-1 + 4 * g) / 2) := by
    rw [Complex.abs_ofReal, abs_div, abs_of_neg hz0neg, abs_of_pos hz1pos]
    ring_nf
  have hgt : 1 < ((1 + 4 * g) / 2) / ((-1 + 4 * g) / 2) := by
    rw [one_lt_div hz1pos]
    linarith
  unfold maxAbsC
  simp only [List.map_cons, List.map_nil, map_one, habs]
  unfold npMaxR
  simp only [List.headD_cons, List.foldl_cons, List.foldl_nil, max_self]
  rw [max_eq_left (le_of_lt hgt)]
  exact ne_of_gt hgt

end

end RF
